import Mathlib

/-!
# Attribute parser (`c_c++/attribute-parser/main.cpp`)

A shallow embedding of the tag-tree builder `build_tag_tree` and of the query
resolver `get_attr_val`, followed by the properties proved about them.

Conventions of the embedding

* A `std::string` is a `List Char` (`Str`), a `char` a `Char`.
* A position or count of type `size_t` that may be `std::string::npos` is an
  `Option Nat`, `none` standing for `npos`.  Strings are shorter than `npos`,
  so a count of `npos` always means "up to the end" and `npos + 1` wraps to `0`.
* `err_and_exit` and an uncaught `std::out_of_range` end the run; functions that
  may reach them return `Except Failure _`.
* `std::map<string, string>` is an association list with unique keys, updated by
  `add_attr` and read by `attrs_find`.
* The `parent` pointer of a `Tag` is only used by the builder to move its cursor
  up; the builder state is a zipper (`Builder`) holding the open node and its
  ancestors.
-/

set_option autoImplicit false

namespace AttributeParser

/-- A `std::string`. -/
abbrev Str := List Char

/-- How a run of the program ends abnormally. -/
inductive Failure where
  /-- The call `err_and_exit(err_msg, line_num)`; `line_num` is `-1` when the caller gives none. -/
  | exit1 (err_msg : Str) (line_num : Int)
  /-- An uncaught `std::out_of_range` thrown by `std::string::substr`. -/
  | out_of_range
  deriving DecidableEq

/-- The result of `err_and_exit`: the message and line number reach `stderr`, the process exits. -/
def err_and_exit {α : Type} (err_msg : Str) (line_num : Int) : Except Failure α :=
  .error (.exit1 err_msg line_num)

/-- The line number that `err_and_exit` prints: the source prints `Line <n>` only
`if (line_num >= 1)`. -/
def Failure.reported_line : Failure → Option Int
  | .exit1 _ line_num => if line_num ≥ 1 then some line_num else none
  | .out_of_range => none

/-- The text `err_and_exit` writes to `std::cerr`. -/
def Failure.stderr : Failure → Str
  | .exit1 err_msg line_num =>
      (if line_num ≥ 1 then "Line ".toList ++ Nat.toDigits 10 line_num.toNat ++ "\n\t".toList
        else []) ++ err_msg ++ ['\n']
  | .out_of_range => []

/-! ## `std::string` operations -/

/-- The value of `p + 1` for a `size_t` position `p`; `npos + 1` wraps to `0`. -/
def pos_succ : Option Nat → Nat
  | none => 0
  | some i => i + 1

/-- The call `str.find(c)`: index of the first `c`, `none` (`npos`) when there is none. -/
def find : Str → Char → Option Nat
  | [], _ => none
  | x :: xs, c => if x = c then some 0 else (find xs c).map (· + 1)

/-- The call `str.find_first_not_of(set)`. -/
def find_first_not_of : Str → List Char → Option Nat
  | [], _ => none
  | x :: xs, set => if x ∉ set then some 0 else (find_first_not_of xs set).map (· + 1)

/-- The call `str.find_last_not_of(set)`. -/
def find_last_not_of : Str → List Char → Option Nat
  | [], _ => none
  | x :: xs, set =>
      match find_last_not_of xs set with
      | some i => some (i + 1)
      | none => if x ∉ set then some 0 else none

/-- The call `str.substr(pos, n)`; throws `std::out_of_range` when `pos > size()`.
A count of `none` is `npos`. -/
def substr (str : Str) (pos : Option Nat) (n : Option Nat) : Except Failure Str :=
  match pos with
  | none => .error .out_of_range
  | some p =>
      if p > str.length then .error .out_of_range
      else match n with
        | none => .ok (str.drop p)
        | some k => .ok ((str.drop p).take k)

/-- The call `str.erase(0, n)`: the string without its first `n` characters (all of it for
`npos`). -/
def erase0 (str : Str) (n : Option Nat) : Str :=
  match n with
  | none => []
  | some k => str.drop k

/-- The value `size() - k` in `size_t` arithmetic, used as a count: when it wraps the count
exceeds every string length, as `npos` does. -/
def size_minus (size k : Nat) : Option Nat :=
  if k ≤ size then some (size - k) else none

/-- The characters `" \t\n"` that `ltrim` and `rtrim` strip. -/
def trim_set : List Char := [' ', '\t', '\n']

/-- Source `ltrim`: `str.substr(str.find_first_not_of(" \t\n"))`. -/
def ltrim (str : Str) : Except Failure Str :=
  substr str (find_first_not_of str trim_set) none

/-- Source `rtrim`: `str.substr(0, str.find_last_not_of(" \t\n") + 1)`. -/
def rtrim (str : Str) : Except Failure Str :=
  substr str (some 0) (some (pos_succ (find_last_not_of str trim_set)))

/-- Source `trim`: `ltrim(rtrim(str))`. -/
def trim (str : Str) : Except Failure Str :=
  rtrim str >>= ltrim

/-! ## Regular expressions (`std::regex`, ECMAScript grammar)

`Regex.run r s` lists, in the priority order of a backtracking matcher, the
remainders of `s` after each way `r` can match a prefix of `s`: alternatives
left to right, greedy repetition first. -/

/-- Regular expressions over character classes. -/
inductive Regex where
  /-- One character satisfying the class. -/
  | chr (p : Char → Bool)
  /-- Concatenation. -/
  | seq (a b : Regex)
  /-- Alternation `a|b`. -/
  | alt (a b : Regex)
  /-- Greedy repetition `a*`. -/
  | star (a : Regex)

/-- Greedy iteration of a matcher `f`: try one more (non-empty) round of `f` first, then stop. -/
def star_run (f : Str → List Str) : Nat → Str → List Str
  | 0, s => [s]
  | n + 1, s => ((f s).filter (fun r => r.length < s.length)).flatMap (star_run f n) ++ [s]

/-- All remainders after a match of a prefix, most preferred first. -/
def Regex.run : Regex → Str → List Str
  | .chr p => fun s =>
      match s with
      | [] => []
      | c :: cs => if p c then [cs] else []
  | .seq a b => fun s => (a.run s).flatMap b.run
  | .alt a b => fun s => a.run s ++ b.run s
  | .star a => fun s => star_run a.run s.length s

/-- The call `std::regex_match(s, r)`: some match covers the whole of `s`. -/
def regex_match (r : Regex) (s : Str) : Bool :=
  (r.run s).any (fun rest => rest.isEmpty)

/-- The call `std::regex_search(s, sm, r)`: the match found from the leftmost start position,
the preferred one from that position; the result is `sm.suffix()`, `none` when nothing matches. -/
def regex_search (r : Regex) : Str → Option Str
  | [] => (r.run []).head?
  | c :: cs =>
      match (r.run (c :: cs)).head? with
      | some rest => some rest
      | none => regex_search r cs

/-- The class `\s` in the classic locale. -/
def isspace (c : Char) : Bool :=
  c = ' ' || c = '\t' || c = '\n' || c = '\x0b' || c = '\x0c' || c = '\r'

/-- A literal character. -/
def Regex.lit (c : Char) : Regex := .chr (fun x => x = c)

/-- Greedy repetition `a+`. -/
def Regex.plus (a : Regex) : Regex := .seq a (.star a)

/-- The pattern `( )*`. -/
def re_spaces : Regex := .star (.lit ' ')

/-- The pattern `[\S=]+( )*=( )*"[^"]+"`, shared by both regexes of the source. -/
def re_pair : Regex :=
  .seq (.plus (.chr (fun c => !isspace c || c = '=')))
    (.seq re_spaces (.seq (.lit '=') (.seq re_spaces
      (.seq (.lit '"') (.seq (.plus (.chr (fun c => c ≠ '"'))) (.lit '"'))))))

/-- The pattern `\S+`. -/
def re_name : Regex := .plus (.chr (fun c => !isspace c))

/-- The first alternative of `tag_regex`: `\S+(( )+[\S=]+( )*=( )*"[^"]+")*( )*`. -/
def re_open : Regex :=
  .seq re_name (.seq (.star (.seq (.plus (.lit ' ')) re_pair)) re_spaces)

/-- The second alternative of `tag_regex`: `/\S+`. -/
def re_close : Regex := .seq (.lit '/') re_name

/-- The source `tag_regex`: `<((\S+(( )+[\S=]+( )*=( )*"[^"]+")*( )*)|(/\S+))>`. -/
def tag_regex : Regex :=
  .seq (.lit '<') (.seq (.alt re_open re_close) (.lit '>'))

/-- The source `attr_val_regex`: `( )*[\S=]+( )*=( )*"[^"]+"( )*`. -/
def attr_val_regex : Regex :=
  .seq re_spaces (.seq re_pair re_spaces)

/-! ## The tag tree -/

/-- Source `struct Tag` without its `parent` pointer: a name, children in insertion order,
and the attribute map. -/
inductive Tag where
  | mk (name : Str) (children : List Tag) (attrs : List (Str × Str))

/-- Field `name`. -/
def Tag.name : Tag → Str
  | .mk n _ _ => n

/-- Field `children`. -/
def Tag.children : Tag → List Tag
  | .mk _ cs _ => cs

/-- Field `attrs`. -/
def Tag.attrs : Tag → List (Str × Str)
  | .mk _ _ as => as

/-- The default-constructed `Tag{}`. -/
def Tag.empty : Tag := .mk [] [] []

/-- The assignment `attrs[attr] = val` on a `std::map`: insert, or overwrite an existing key. -/
def add_attr (attrs : List (Str × Str)) (attr val : Str) : List (Str × Str) :=
  (attr, val) :: attrs.filter (fun p => p.1 ≠ attr)

/-- The lookup `attrs.find(token)` followed by `attrs.at(token)`. -/
def attrs_find (attrs : List (Str × Str)) (token : Str) : Option Str :=
  (attrs.find? (fun p => p.1 = token)).map (·.2)

/-! ## `build_tag_tree` -/

/-- The builder state: the node `curr` points at and the chain of its ancestors, nearest
first.  Each ancestor is recorded without its last child, which is the next node on the way
down to `curr` (so `new_child` pushes, and moving to `parent` appends `curr` to the children
of the nearest ancestor).  `curr->parent == nullptr` is `up = []`, and then `curr` is
`curr_origin`.  The pointer `curr` is initialised to `&curr_origin` and is only reassigned to
an existing parent or to a new child, so its `nullptr` test in the source never succeeds. -/
structure Builder where
  curr : Tag
  up : List Tag

/-- The state before the first line: `curr = &curr_origin`, an empty `Tag`. -/
def Builder.init : Builder := ⟨Tag.empty, []⟩

/-- The step `curr = curr->parent`. -/
def Builder.to_parent (b : Builder) : Builder :=
  match b.up with
  | [] => b
  | p :: ps => ⟨.mk p.name (p.children ++ [b.curr]) p.attrs, ps⟩

/-- The `while (std::regex_search(line, sm, attr_val_regex))` loop (source lines 130-142),
with `attrs` the map of `*curr`.  The first argument bounds the number of rounds; `line`
gets shorter in every round, so `line.length + 1` rounds always suffice. -/
def attr_loop : Nat → Str → List (Str × Str) → Except Failure (List (Str × Str))
  | 0, _, attrs => .ok attrs
  | fuel + 1, line, attrs =>
      match regex_search attr_val_regex line with
      | none => .ok attrs
      | some suffix => do
          let line2 ← trim line
          let eqi := find line2 '='
          let attr ← substr line2 (some 0) eqi >>= trim
          let line2 ← trim (erase0 line2 (some (pos_succ (find line2 '='))))
          let line2 := erase0 line2 (some (pos_succ (find line2 '"')))
          let val ← substr line2 (some 0) (find line2 '"') >>= trim
          attr_loop fuel suffix (add_attr attrs attr val)

/-- Source `Tag::new_child` as called in `curr = &curr->new_child()`: an empty `Tag` becomes
the last child of `curr`, and `curr` moves to it. -/
def Builder.new_child (b : Builder) : Builder := ⟨Tag.empty, b.curr :: b.up⟩

/-- The opening-tag branch after `new_child` (source lines 123-142) on the node `curr` points
at: its name and attributes are set from the line without its angle brackets. -/
def open_tag (curr : Tag) (line : Str) : Except Failure Tag := do
  let line ← trim line
  let name ← substr line (some 0) (find line ' ')
  let line := erase0 line (find line ' ')
  let attrs ← attr_loop (line.length + 1) line curr.attrs
  return .mk name curr.children attrs

/-- One round of the `while (std::getline(ss, line))` loop (source lines 95-143); `line_num` is
the value after `++line_num`. -/
def build_step (b : Builder) (line_num : Nat) (line : Str) : Except Failure Builder := do
  if !regex_match tag_regex line then
    err_and_exit "Syntax error".toList line_num
  else
    let line ← substr line (some 1) (size_minus line.length 2)
    if line.headD (Char.ofNat 0) = '/' then
      let closing_tag_name ← substr line (some 1) (size_minus line.length 1)
      if closing_tag_name ≠ b.curr.name then
        err_and_exit ("Closing inexisting tag: ".toList ++ closing_tag_name) line_num
      else
        return b.to_parent
    else
      let b := b.new_child
      let t ← open_tag b.curr line
      return ⟨t, b.up⟩

/-- The loop over the lines; `line_num` is the number of lines read so far. -/
def build_loop : List Str → Nat → Builder → Except Failure Builder
  | [], _, b => .ok b
  | line :: rest, line_num, b => do
      let b ← build_step b (line_num + 1) line
      build_loop rest (line_num + 1) b

/-- The lines `std::getline` extracts from a stream holding `input`: the pieces between
newlines, a last piece without newline included when it is not empty. -/
def getlines : Str → List Str
  | [] => []
  | c :: cs =>
      if c = '\n' then [] :: getlines cs
      else match getlines cs with
        | [] => [[c]]
        | l :: ls => (c :: l) :: ls

/-- Source `build_tag_tree`. -/
def build_tag_tree (input : Str) : Except Failure Tag := do
  let b ← build_loop (getlines input) 0 Builder.init
  match b.up with
  | _ :: _ => err_and_exit "Missing closing tag".toList (-1)
  | [] => return b.curr

/-! ## `get_attr_val` -/

/-- The search `find_if(tag->children.begin(), tag->children.end(), has_name)`. -/
def find_child (tag : Tag) (token : Str) : Option Tag :=
  tag.children.find? (fun t => t.name = token)

/-- The tag a delimiter moves to (source lines 160-173 and 180-195); `none` is the `break`. -/
def descend (tag_tree : Tag) (tag : Option Tag) (token : Str) : Option Tag :=
  match tag with
  | none => if token ≠ tag_tree.name then none else some tag_tree
  | some t => find_child t token

/-- The `for (auto c : input)` loop of `get_attr_val` over the characters still to read, with
the local variables `tag` (`none` for `nullptr`), `token` and `res`. -/
def get_attr_loop (tag_tree : Tag) (input : Str) :
    List Char → Option Tag → Str → Option Str → Except Failure (Option Str)
  | [], _, _, res => .ok res
  | c :: cs, tag, token, res =>
      if c = '~' then
        match descend tag_tree tag token with
        | none => .ok res
        | some t => do
            let token ← substr input (some (pos_succ (find input '~'))) none
            let res := match attrs_find t.attrs token with
              | some v => some v
              | none => res
            get_attr_loop tag_tree input cs (some t) token res
      else if c = '.' then
        match descend tag_tree tag token with
        | none => .ok res
        | some t => get_attr_loop tag_tree input cs (some t) [] res
      else
        get_attr_loop tag_tree input cs tag (token ++ [c]) res

/-- Source `get_attr_val`; `none` is the empty `std::optional` ("Not Found!"). -/
def get_attr_val (tag_tree : Tag) (input : Str) : Except Failure (Option Str) :=
  get_attr_loop tag_tree input input (some tag_tree) [] none

/-! ## Notions used to state the properties -/

/-- Declarative meaning of a regular expression: `r.Matches s` when `s` is in the language
of `r`. -/
inductive Regex.Matches : Regex → Str → Prop
  | chr (p : Char → Bool) (c : Char) : p c = true → Matches (.chr p) [c]
  | seq (a b : Regex) (s t : Str) : Matches a s → Matches b t → Matches (.seq a b) (s ++ t)
  | alt_left (a b : Regex) (s : Str) : Matches a s → Matches (.alt a b) s
  | alt_right (a b : Regex) (s : Str) : Matches b s → Matches (.alt a b) s
  | star_nil (a : Regex) : Matches (.star a) []
  | star_cons (a : Regex) (s t : Str) : Matches a s → Matches (.star a) t →
      Matches (.star a) (s ++ t)

/-- The two delimiters of a query. -/
def is_delim (c : Char) : Bool := c = '.' || c = '~'

/-- The text of a query before its first `.` or `~`. -/
def first_segment (q : Str) : Str := q.takeWhile (fun c => !is_delim c)

/-- Descent by names: from `t`, step for each name to the first direct child with that name. -/
def walk : Tag → List Str → Option Tag
  | t, [] => some t
  | t, s :: ss => (find_child t s).bind (fun c => walk c ss)

/-- The query `s1.s2. ... .sn~attr`. -/
def path_query (segs : List Str) (attr : Str) : Str :=
  List.intercalate ['.'] segs ++ '~' :: attr

/-- The text of a line between its first and its last character. -/
def inner (line : Str) : Str := (line.drop 1).dropLast

/-- The builder takes a line for a closing tag when the text after `<` starts with `/`. -/
def is_closing (line : Str) : Bool := (inner line).headD (Char.ofNat 0) = '/'

/-- The name a closing line carries: the text between `</` and `>`. -/
def closing_name (line : Str) : Str := (inner line).drop 1

/-- The name an opening line carries: the text after `<` up to the first space. -/
def opening_name (line : Str) : Str := (inner line).takeWhile (fun c => c ≠ ' ')

/-- Well-nestedness as the specification words it, over the stack of names of the tags that
are open (most recent first): a closing tag needs an open tag and must carry the name of the
most recent one; at the end no tag is open. -/
def well_nested_from : List Str → List Str → Bool
  | stack, [] => stack.isEmpty
  | stack, l :: ls =>
      if is_closing l then
        match stack with
        | [] => false
        | top :: rest => closing_name l = top && well_nested_from rest ls
      else well_nested_from (opening_name l :: stack) ls

/-- Well-nestedness as the builder checks it: as `well_nested_from`, except that with no tag
open a closing tag with the empty name (`</>`) is let through and closes nothing. -/
def accepted_nesting_from : List Str → List Str → Bool
  | stack, [] => stack.isEmpty
  | stack, l :: ls =>
      if is_closing l then
        match stack with
        | [] => closing_name l = [] && accepted_nesting_from [] ls
        | top :: rest => closing_name l = top && accepted_nesting_from rest ls
      else accepted_nesting_from (opening_name l :: stack) ls

/-- Name and attribute extraction (source lines 123-142) runs to its end on an opening line,
without throwing. -/
def extracts (line : Str) : Bool :=
  match open_tag Tag.empty (inner line) with
  | .ok _ => true
  | .error _ => false

/-- The number of tags open after the lines, starting with `d` open: an opening line opens
one, a closing line closes one if any is open. -/
def open_depth : List Str → Nat → Nat
  | [], d => d
  | l :: ls, d => if is_closing l then open_depth ls (d - 1) else open_depth ls (d + 1)

/-- The number of opening-tag lines. -/
def opening_lines (lines : List Str) : Nat := (lines.filter (fun l => !is_closing l)).length

mutual
/-- The number of nodes of a tree. -/
def Tag.count : Tag → Nat
  | .mk _ cs _ => 1 + Tag.count_list cs
/-- The number of nodes of a list of trees. -/
def Tag.count_list : List Tag → Nat
  | [] => 0
  | t :: ts => t.count + Tag.count_list ts
end

/-- The number of descendants of a node. -/
def Tag.descendants (t : Tag) : Nat := Tag.count_list t.children

/-! ## Reference semantics of a query, in the words of the specification -/

/-- The first tag of a list, in document order, whose name equals `s`. -/
def ref_child : List Tag → Str → Option Tag
  | [], _ => none
  | c :: cs, s => if c.name = s then some c else ref_child cs s

/-- Stepping for each segment in turn to the first direct child with that name. -/
def ref_descend : Tag → List Str → Option Tag
  | t, [] => some t
  | t, s :: ss =>
      match ref_child t.children s with
      | none => none
      | some c => ref_descend c ss

/-- The value an attribute mapping holds for the name `a`. -/
def ref_attr : List (Str × Str) → Str → Option Str
  | [], _ => none
  | (k, v) :: rest, a => if k = a then some v else ref_attr rest a

/-- The reference result of the query `s1.s2. ... .sn~a` on the node `t`. -/
def ref_get_attr_val (t : Tag) (segs : List Str) (a : Str) : Option Str :=
  match ref_descend t segs with
  | none => none
  | some n => ref_attr n.attrs a

mutual
/-- The node and all nodes below it have non-empty names. -/
def Tag.named : Tag → Bool
  | .mk n cs _ => !n.isEmpty && Tag.named_list cs
/-- All nodes of a list of trees have non-empty names. -/
def Tag.named_list : List Tag → Bool
  | [] => true
  | t :: ts => t.named && Tag.named_list ts
end

/-- The builder only holds named nodes: every frame but the outermost (the root) has a
non-empty name, and all children of all frames are named. -/
def Builder.named (b : Builder) : Prop :=
  ∃ rest root, b.curr :: b.up = rest ++ [root] ∧
    (∀ t ∈ rest, t.name ≠ [] ∧ Tag.named_list t.children = true) ∧
    Tag.named_list root.children = true

/-! ## Writing a forest of tags as markup lines -/

/-- A well-formed tag name: non-empty, no whitespace, not starting with `/`. -/
def well_formed_name (n : Str) : Bool :=
  !n.isEmpty && n.all (fun c => !isspace c) && n.head? != some '/'

/-- A well-formed attribute key: non-empty, without whitespace, `=` and `"`. -/
def well_formed_key (k : Str) : Bool :=
  !k.isEmpty && k.all (fun c => !isspace c && c != '=' && c != '"')

/-- A well-formed attribute value: non-empty, without `"`, without leading or trailing
whitespace. -/
def well_formed_value (v : Str) : Bool :=
  !v.isEmpty && v.all (fun c => c != '"') && !(v.head?.any isspace) && !(v.getLast?.any isspace)

/-- Well-formed attributes: distinct well-formed keys with well-formed values. -/
def well_formed_attrs (attrs : List (Str × Str)) : Bool :=
  decide (attrs.map (fun p => p.1)).Nodup &&
    attrs.all (fun p => well_formed_key p.1 && well_formed_value p.2)

mutual
/-- A tag with a well-formed name, well-formed attributes and well-formed children. -/
def well_formed_tag : Tag → Bool
  | .mk n cs attrs => well_formed_name n && well_formed_attrs attrs && well_formed_forest cs
/-- A forest of well-formed tags. -/
def well_formed_forest : List Tag → Bool
  | [] => true
  | t :: ts => well_formed_tag t && well_formed_forest ts
end

/-- One pair as written on an opening line: a space, then `key="value"`. -/
def render_pair (p : Str × Str) : Str := ' ' :: p.1 ++ '=' :: '"' :: p.2 ++ ['"']

mutual
/-- The lines of a tag: its opening line with its pairs, the lines of its children in order,
its closing line. -/
def render_tag : Tag → List Str
  | .mk n cs attrs =>
      ('<' :: n ++ attrs.flatMap render_pair ++ ['>']) ::
        (render_forest cs ++ ['<' :: '/' :: n ++ ['>']])
/-- The lines of a forest. -/
def render_forest : List Tag → List Str
  | [] => []
  | t :: ts => render_tag t ++ render_forest ts
end

/-- The input string `main` hands to `build_tag_tree`: every line followed by a newline. -/
def unlines (lines : List Str) : Str := lines.flatMap (fun l => l ++ ['\n'])

/-! ## Markup documents as they are written -/

/-- One attribute pair as written on an opening line: `lead + 1` spaces, the key, `pre`
spaces, `=`, `post` spaces and, between double quotes, the value with the whitespace
`pad_left` before it and `pad_right` after it. -/
structure WrittenPair where
  lead : Nat
  key : Str
  pre : Nat
  post : Nat
  pad_left : Str
  value : Str
  pad_right : Str

/-- The text between the two quotes of a written pair. -/
def WrittenPair.quoted (p : WrittenPair) : Str := p.pad_left ++ (p.value ++ p.pad_right)

/-- The key, `=` and quoted value as written, without the spaces in front. -/
def WrittenPair.body (p : WrittenPair) : Str :=
  p.key ++ (List.replicate p.pre ' ' ++
    ('=' :: (List.replicate p.post ' ' ++ ('"' :: (p.quoted ++ ['"'])))))

/-- The text of a written pair. -/
def WrittenPair.text (p : WrittenPair) : Str := List.replicate (p.lead + 1) ' ' ++ p.body

/-- The text of the pairs of an opening line, in the order written. -/
def pairs_text : List WrittenPair → Str
  | [] => []
  | p :: ps => p.text ++ pairs_text ps

/-- A well-formed written pair: the key is not empty and has no whitespace
and no `=`; the value is not empty, has no `"` and no `=`, and does not start or end with a
character of `" \t\n"`; the padding inside the quotes consists of such characters. -/
def WrittenPair.well_formed (p : WrittenPair) : Bool :=
  !p.key.isEmpty && p.key.all (fun c => !isspace c && c != '=') &&
  !p.value.isEmpty && p.value.all (fun c => c != '"' && c != '=') &&
  p.value.head?.all (fun c => !trim_set.contains c) &&
  p.value.getLast?.all (fun c => !trim_set.contains c) &&
  p.pad_left.all (fun c => trim_set.contains c) &&
  p.pad_right.all (fun c => trim_set.contains c)

/-- A tag as written in a markup document: its name, the pairs of its opening line, the
number of spaces before the `>` of the opening line, and the tags written between its opening
and its closing line. -/
inductive Element where
  | mk (name : Str) (pairs : List WrittenPair) (trail : Nat) (children : List Element)

/-- The name of a written tag. -/
def Element.name : Element → Str
  | .mk n _ _ _ => n

/-- The pairs of a written tag. -/
def Element.pairs : Element → List WrittenPair
  | .mk _ ps _ _ => ps

/-- The tags written inside a tag. -/
def Element.children : Element → List Element
  | .mk _ _ _ cs => cs

/-- The opening line `<NAME pairs>` of a written tag. -/
def opening_line (name : Str) (pairs : List WrittenPair) (trail : Nat) : Str :=
  '<' :: (name ++ (pairs_text pairs ++ List.replicate trail ' ')) ++ ['>']

/-- The closing line `</NAME>`. -/
def closing_line (name : Str) : Str := '<' :: '/' :: name ++ ['>']

mutual
/-- The lines of a written tag: its opening line, the lines of the tags inside it in order,
its closing line. -/
def Element.lines : Element → List Str
  | .mk n ps tr cs => opening_line n ps tr :: (Element.lines_list cs ++ [closing_line n])
/-- The lines of a document: the lines of its tags in order. -/
def Element.lines_list : List Element → List Str
  | [] => []
  | e :: es => e.lines ++ Element.lines_list es
end

mutual
/-- A written tag with a well-formed name (not empty, no whitespace, not starting with `/`),
well-formed pairs and well-formed tags inside it. -/
def Element.well_formed : Element → Bool
  | .mk n ps _ cs =>
      well_formed_name n && ps.all WrittenPair.well_formed && Element.well_formed_list cs
/-- A document of well-formed tags. -/
def Element.well_formed_list : List Element → Bool
  | [] => true
  | e :: es => e.well_formed && Element.well_formed_list es
end

/-- The attribute map holding the pairs in the order written. -/
def written_attrs (pairs : List WrittenPair) : List (Str × Str) :=
  pairs.foldl (fun attrs p => add_attr attrs p.key p.value) []

mutual
/-- The node a written tag stands for. -/
def Element.tag : Element → Tag
  | .mk n ps _ cs => .mk n (Element.tags cs) (written_attrs ps)
/-- The nodes a list of written tags stands for, in document order. -/
def Element.tags : List Element → List Tag
  | [] => []
  | e :: es => e.tag :: Element.tags es
end

/-- The first tag of a list, in document order, with the name `s`. -/
def Element.first_named (es : List Element) (s : Str) : Option Element :=
  es.find? (fun e => e.name = s)

/-- The written tag a chain of names leads to in a document, stepping each time to the first
tag with that name among the tags written directly inside the previous one. -/
def Element.walk : List Element → List Str → Option Element
  | _, [] => none
  | es, s :: ss =>
      match Element.first_named es s with
      | none => none
      | some e =>
          match ss with
          | [] => some e
          | _ :: _ => Element.walk e.children ss

/-! ## Notions used in the analysis of the pair pattern -/

/-- The remainders a greedy `[class]*` leaves, most preferred first: after the longest run of
characters of the class, then after each shorter one, last the text itself. -/
def greedy_tails (p : Char → Bool) : Str → List Str
  | [] => [[]]
  | c :: cs => if p c then greedy_tails p cs ++ [c :: cs] else [c :: cs]

/-- The first character of a text that is not a space. -/
def lead_char (s : Str) : Option Char := (s.dropWhile (fun c => c = ' ')).head?

/-! ## Example inputs -/

/-- The node `b` of scenario 2. -/
def ex_hello_b : Tag := .mk "b".toList [] [("value".toList, "hello".toList)]

/-- The tree of scenario 2: the unnamed root above the outermost tag `a`. -/
def ex_hello_tree : Tag := .mk [] [.mk "a".toList [ex_hello_b] []] []

/-- The second of two sibling tags `b`. -/
def ex_twins_b2 : Tag := .mk "b".toList [] [("v".toList, "2".toList)]

/-- A tag `a` with two children named `b`. -/
def ex_twins_a : Tag :=
  .mk "a".toList [.mk "b".toList [] [("v".toList, "1".toList)], ex_twins_b2] []

/-- The tree built from `<a>`, `<b v="1">`, `</b>`, `<b v="2">`, `</b>`, `</a>`. -/
def ex_twins_tree : Tag := .mk [] [ex_twins_a] []

/-- The lines `<a x="1">`, `<b>`, `</b>`, `</a>`, `</>`. -/
def ex_nested_input : Str := "<a x=\"1\">\n<b>\n</b>\n</a>\n</>\n".toList

/-- The tree of scenario 1: the unnamed root above `<tag1 value="value">`. -/
def ex_tag1_tree : Tag := .mk [] [.mk "tag1".toList [] [("value".toList, "value".toList)]] []

/-- The node `a` of scenario 3. -/
def ex_ab_a : Tag :=
  .mk "a".toList [.mk "b".toList [] [("x".toList, "2".toList)]] [("x".toList, "1".toList)]

/-- The tree of scenario 3: `<a x="1">`, `<b x="2">`, `</b>`, `</a>`. -/
def ex_ab_tree : Tag := .mk [] [ex_ab_a] []

/-- The node built from `<a x.y="1">`. -/
def ex_xy_a : Tag := .mk "a".toList [] [("x.y".toList, "1".toList)]

/-- The tree built from `<a x.y="1">`, `</a>`. -/
def ex_xy_tree : Tag := .mk [] [ex_xy_a] []

/-- A forest of one tag `a` with the attributes `k="x="` and `y="z"`. -/
def ex_forest : List Tag :=
  [.mk "a".toList [] [("k".toList, "x=".toList), ("y".toList, "z".toList)]]

theorem star_run_sound (a : Regex) (f : Str → List Str)
    (hf : ∀ s rest, rest ∈ f s → ∃ pre, s = pre ++ rest ∧ a.Matches pre)
    (n : Nat) (s rest : Str) (h : rest ∈ star_run f n s) :
    ∃ pre, s = pre ++ rest ∧ (Regex.star a).Matches pre := by
  induction n generalizing s with
  | zero =>
    simp only [star_run, List.mem_singleton] at h
    exact ⟨[], by simp [h], .star_nil a⟩
  | succ n ih =>
    simp only [star_run, List.mem_append, List.mem_flatMap, List.mem_filter,
      List.mem_singleton] at h
    rcases h with ⟨mid, ⟨hmid, _⟩, hrest⟩ | h
    · obtain ⟨p1, rfl, hp1⟩ := hf s mid hmid
      obtain ⟨p2, rfl, hp2⟩ := ih mid hrest
      exact ⟨p1 ++ p2, by simp, .star_cons a p1 p2 hp1 hp2⟩
    · exact ⟨[], by simp [h], .star_nil a⟩

theorem Regex.run_sound (r : Regex) (s rest : Str) (h : rest ∈ r.run s) :
    ∃ pre, s = pre ++ rest ∧ r.Matches pre := by
  induction r generalizing s rest with
  | chr p =>
    cases s with
    | nil => simp [Regex.run] at h
    | cons c cs =>
      simp only [Regex.run] at h
      split at h
      · simp only [List.mem_singleton] at h
        exact ⟨[c], by simp [h], .chr p c (by assumption)⟩
      · simp at h
  | seq a b iha ihb =>
    simp only [Regex.run, List.mem_flatMap] at h
    obtain ⟨mid, hmid, hrest⟩ := h
    obtain ⟨p1, rfl, hp1⟩ := iha s mid hmid
    obtain ⟨p2, rfl, hp2⟩ := ihb mid rest hrest
    exact ⟨p1 ++ p2, by simp, .seq a b p1 p2 hp1 hp2⟩
  | alt a b iha ihb =>
    simp only [Regex.run, List.mem_append] at h
    rcases h with h | h
    · obtain ⟨p, hp, hm⟩ := iha s rest h
      exact ⟨p, hp, .alt_left a b p hm⟩
    · obtain ⟨p, hp, hm⟩ := ihb s rest h
      exact ⟨p, hp, .alt_right a b p hm⟩
  | star a ih =>
    simp only [Regex.run] at h
    exact star_run_sound a a.run ih _ s rest h

theorem regex_match_sound (r : Regex) (s : Str) (h : regex_match r s = true) : r.Matches s := by
  simp only [regex_match, List.any_eq_true, List.isEmpty_iff] at h
  obtain ⟨rest, hmem, rfl⟩ := h
  obtain ⟨pre, hs, hm⟩ := r.run_sound s [] hmem
  simp at hs
  exact hs ▸ hm

theorem matches_chr_iff (p : Char → Bool) (s : Str) :
    (Regex.chr p).Matches s ↔ ∃ c, s = [c] ∧ p c = true := by
  constructor
  · intro h; cases h with | chr _ c hc => exact ⟨c, rfl, hc⟩
  · rintro ⟨c, rfl, hc⟩; exact .chr p c hc

theorem matches_seq_iff (a b : Regex) (s : Str) :
    (Regex.seq a b).Matches s ↔ ∃ u v, s = u ++ v ∧ a.Matches u ∧ b.Matches v := by
  constructor
  · intro h; cases h with | seq _ _ u v hu hv => exact ⟨u, v, rfl, hu, hv⟩
  · rintro ⟨u, v, rfl, hu, hv⟩; exact .seq a b u v hu hv

theorem matches_alt_iff (a b : Regex) (s : Str) :
    (Regex.alt a b).Matches s ↔ a.Matches s ∨ b.Matches s := by
  constructor
  · intro h
    cases h with
    | alt_left _ _ _ h => exact .inl h
    | alt_right _ _ _ h => exact .inr h
  · rintro (h | h)
    · exact .alt_left a b s h
    · exact .alt_right a b s h

theorem matches_star_chr (p : Char → Bool) (s : Str) (h : (Regex.star (.chr p)).Matches s) :
    ∀ c ∈ s, p c = true := by
  generalize hr : Regex.star (.chr p) = r at h
  induction h with
  | star_nil a => simp
  | star_cons a u v hu _ _ ih2 =>
    cases hr
    obtain ⟨c, rfl, hc⟩ := (matches_chr_iff p u).1 hu
    intro x hx
    simp only [List.singleton_append, List.mem_cons] at hx
    rcases hx with rfl | hx
    · exact hc
    · exact ih2 rfl x hx
  | _ => cases hr

theorem matches_plus_chr (p : Char → Bool) (s : Str) (h : (Regex.plus (.chr p)).Matches s) :
    s ≠ [] ∧ ∀ c ∈ s, p c = true := by
  obtain ⟨u, v, rfl, hu, hv⟩ := (matches_seq_iff _ _ s).1 h
  obtain ⟨c, rfl, hc⟩ := (matches_chr_iff p u).1 hu
  refine ⟨by simp, ?_⟩
  intro x hx
  simp only [List.singleton_append, List.mem_cons] at hx
  rcases hx with rfl | hx
  · exact hc
  · exact matches_star_chr p v hv x hx



theorem matches_lit_iff (c : Char) (s : Str) : (Regex.lit c).Matches s ↔ s = [c] := by
  unfold Regex.lit
  rw [matches_chr_iff]
  constructor
  · rintro ⟨x, rfl, hx⟩; simp at hx; simp [hx]
  · rintro rfl; exact ⟨c, rfl, by simp⟩

theorem matches_re_spaces (s : Str) (h : re_spaces.Matches s) : ∀ c ∈ s, c = ' ' := by
  intro c hc
  have := matches_star_chr _ s h c hc
  simpa using this

theorem matches_re_name (s : Str) (h : re_name.Matches s) :
    s ≠ [] ∧ ∀ c ∈ s, isspace c = false := by
  obtain ⟨h1, h2⟩ := matches_plus_chr _ s h
  exact ⟨h1, fun c hc => by simpa using h2 c hc⟩

theorem matches_re_pair_quote (s : Str) (h : re_pair.Matches s) : '"' ∈ s := by
  unfold re_pair at h
  obtain ⟨_, v1, rfl, _, h⟩ := (matches_seq_iff _ _ _).1 h
  obtain ⟨_, v2, rfl, _, h⟩ := (matches_seq_iff _ _ _).1 h
  obtain ⟨_, v3, rfl, _, h⟩ := (matches_seq_iff _ _ _).1 h
  obtain ⟨_, v4, rfl, _, h⟩ := (matches_seq_iff _ _ _).1 h
  obtain ⟨q, v5, rfl, hq, _⟩ := (matches_seq_iff _ _ _).1 h
  rw [matches_lit_iff] at hq
  subst hq
  simp

theorem matches_pairs (s : Str)
    (h : (Regex.star (.seq (.plus (.lit ' ')) re_pair)).Matches s) :
    s = [] ∨ ((∃ s', s = ' ' :: s') ∧ '"' ∈ s) := by
  generalize hr : Regex.star (.seq (.plus (.lit ' ')) re_pair) = r at h
  induction h with
  | star_nil a => exact .inl rfl
  | star_cons a u v hu _ _ ih2 =>
    cases hr
    right
    obtain ⟨x, y, rfl, hx, hy⟩ := (matches_seq_iff _ _ _).1 hu
    obtain ⟨x1, x2, rfl, hx1, _⟩ := (matches_seq_iff _ _ _).1 hx
    rw [matches_lit_iff] at hx1
    subst hx1
    have := matches_re_pair_quote y hy
    exact ⟨⟨_, rfl⟩, by simp [this]⟩
  | _ => cases hr

theorem matches_re_open (s : Str) (h : re_open.Matches s) :
    ∃ w u v, s = w ++ (u ++ v) ∧ w ≠ [] ∧ (∀ c ∈ w, isspace c = false)
      ∧ (u = [] ∨ ((∃ u', u = ' ' :: u') ∧ '"' ∈ u)) ∧ (∀ c ∈ v, c = ' ') := by
  unfold re_open at h
  obtain ⟨w, r, rfl, hw, h⟩ := (matches_seq_iff _ _ _).1 h
  obtain ⟨u, v, rfl, hu, hv⟩ := (matches_seq_iff _ _ _).1 h
  obtain ⟨hw1, hw2⟩ := matches_re_name w hw
  exact ⟨w, u, v, rfl, hw1, hw2, matches_pairs u hu, matches_re_spaces v hv⟩

theorem matches_re_close (s : Str) (h : re_close.Matches s) :
    ∃ w, s = '/' :: w ∧ w ≠ [] ∧ ∀ c ∈ w, isspace c = false := by
  unfold re_close at h
  obtain ⟨x, w, rfl, hx, hw⟩ := (matches_seq_iff _ _ _).1 h
  rw [matches_lit_iff] at hx
  subst hx
  obtain ⟨hw1, hw2⟩ := matches_re_name w hw
  exact ⟨w, rfl, hw1, hw2⟩

theorem matches_tag_regex (line : Str) (h : tag_regex.Matches line) :
    ∃ inner, line = '<' :: inner ++ ['>'] ∧
      (re_open.Matches inner ∨ re_close.Matches inner) := by
  unfold tag_regex at h
  obtain ⟨x, r, rfl, hx, h⟩ := (matches_seq_iff _ _ _).1 h
  obtain ⟨inner, y, rfl, hi, hy⟩ := (matches_seq_iff _ _ _).1 h
  rw [matches_lit_iff] at hx hy
  subst hx hy
  exact ⟨inner, by simp, (matches_alt_iff _ _ _).1 hi⟩

/-- A line `<NAME TEXT>` without any double quote, `TEXT` not blank, is rejected by `tag_regex`. -/
theorem tag_regex_rejects_unquoted (name text : Str) (c : Char) (hc : c ∈ text) (hcs : c ≠ ' ')
    (hq : '"' ∉ name ++ ' ' :: text) :
    regex_match tag_regex ('<' :: (name ++ ' ' :: text) ++ ['>']) = false := by
  by_contra hne
  have hm := regex_match_sound _ _ (by simpa using hne)
  obtain ⟨inner, hline, hcase⟩ := matches_tag_regex _ hm
  have hinner : inner = name ++ ' ' :: text := by
    have h2 : (name ++ ' ' :: text) ++ ['>'] = inner ++ ['>'] := by
      have := (List.cons.inj hline).2
      simpa using this
    exact (List.append_cancel_right h2).symm
  subst hinner
  rcases hcase with ho | hcl
  · obtain ⟨w, u, v, hs, _, hw, hu, hv⟩ := matches_re_open _ ho
    have hu' : u = [] := by
      rcases hu with hu | ⟨_, hu⟩
      · exact hu
      · exact absurd (by rw [hs]; simp [hu]) hq
    subst hu'
    simp only [List.nil_append] at hs
    rcases List.append_eq_append_iff.1 hs with ⟨a', ha, hb⟩ | ⟨c', ha, hb⟩
    · -- w = name ++ a'
      cases a' with
      | nil =>
        simp only [List.nil_append] at hb
        have := hv c (by rw [← hb]; simp [hc])
        exact hcs this
      | cons x xs =>
        have hx : x = ' ' := by
          have := List.cons.inj hb
          exact this.1.symm
        have := hw ' ' (by rw [ha, hx]; simp)
        simp [isspace] at this
    · have := hv c (by rw [hb]; simp [hc])
      exact hcs this
  · obtain ⟨w, hs, _, hw⟩ := matches_re_close _ hcl
    have hmem : ' ' ∈ '/' :: w := by rw [← hs]; simp
    simp only [List.mem_cons] at hmem
    rcases hmem with h | h
    · exact absurd h (by decide)
    · have := hw _ h
      simp [isspace] at this


theorem star_run_fuel (f : Str → List Str) (n m : Nat) (s : Str)
    (hn : s.length ≤ n) (hm : s.length ≤ m) : star_run f n s = star_run f m s := by
  induction n generalizing m s with
  | zero =>
    have hs : s = [] := List.eq_nil_of_length_eq_zero (by omega)
    subst hs
    cases m with
    | zero => rfl
    | succ m => simp [star_run]
  | succ n ih =>
    cases m with
    | zero =>
      have hs : s = [] := List.eq_nil_of_length_eq_zero (by omega)
      subst hs
      simp [star_run]
    | succ m =>
      simp only [star_run]
      congr 1
      apply List.flatMap_congr
      intro r hr
      have hlt : r.length < s.length := by
        have := (List.mem_filter.1 hr).2
        simpa using this
      exact ih m r (by omega) (by omega)

theorem Regex.run_complete (r : Regex) (pre : Str) (h : r.Matches pre) (rest : Str) :
    rest ∈ r.run (pre ++ rest) := by
  induction h generalizing rest with
  | chr p c hc => simp [Regex.run, hc]
  | seq a b s t _ _ iha ihb =>
    simp only [Regex.run, List.mem_flatMap, List.append_assoc]
    exact ⟨t ++ rest, iha (t ++ rest), ihb rest⟩
  | alt_left a b s _ ih => simp [Regex.run, ih rest]
  | alt_right a b s _ ih => simp [Regex.run, ih rest]
  | star_nil a =>
    simp only [Regex.run, List.nil_append]
    cases rest <;> simp [star_run]
  | star_cons a s t _ _ iha ihs =>
    cases s with
    | nil => simpa using ihs rest
    | cons c cs =>
      have h1 := iha (t ++ rest)
      have h2 := ihs rest
      simp only [Regex.run] at h2 ⊢
      simp only [List.cons_append, List.append_assoc, List.length_cons, star_run,
        List.mem_append, List.mem_flatMap, List.mem_filter, List.mem_singleton]
      left
      refine ⟨t ++ rest, ⟨by simpa using h1, by simp; omega⟩, ?_⟩
      rw [star_run_fuel a.run _ (t ++ rest).length (t ++ rest) (by simp) (le_refl _)]
      exact h2

/-- The call `regex_match` decides membership in the language of the expression. -/
theorem regex_match_iff (r : Regex) (s : Str) : regex_match r s = true ↔ r.Matches s := by
  constructor
  · exact regex_match_sound r s
  · intro h
    have := r.run_complete s h []
    simp only [List.append_nil] at this
    simp only [regex_match, List.any_eq_true, List.isEmpty_iff]
    exact ⟨[], this, rfl⟩

theorem matches_star_chr_of (p : Char → Bool) (s : Str) (h : ∀ c ∈ s, p c = true) :
    (Regex.star (.chr p)).Matches s := by
  induction s with
  | nil => exact .star_nil _
  | cons x xs ih =>
    exact .star_cons _ [x] xs (.chr p x (h x (by simp))) (ih (fun c hc => h c (by simp [hc])))

theorem matches_plus_chr_of (p : Char → Bool) (s : Str) (hne : s ≠ [])
    (h : ∀ c ∈ s, p c = true) : (Regex.plus (.chr p)).Matches s := by
  cases s with
  | nil => exact absurd rfl hne
  | cons x xs =>
    exact .seq _ _ [x] xs (.chr p x (h x (by simp)))
      (matches_star_chr_of p xs (fun c hc => h c (by simp [hc])))

theorem matches_re_name_of (s : Str) (hne : s ≠ []) (h : ∀ c ∈ s, isspace c = false) :
    re_name.Matches s :=
  matches_plus_chr_of _ s hne (fun c hc => by simp [h c hc])

/-! ## The attribute map -/

theorem build_loop_append (pre rest : List Str) (n : Nat) (b : Builder) :
    build_loop (pre ++ rest) n b
      = build_loop pre n b >>= fun b' => build_loop rest (n + pre.length) b' := by
  induction pre generalizing n b with
  | nil => rfl
  | cons l ls ih =>
    simp only [List.cons_append, build_loop, List.length_cons]
    cases build_step b (n + 1) l with
    | error e => rfl
    | ok b1 =>
      show build_loop (ls ++ rest) (n + 1) b1 = _
      rw [ih]
      show _ = build_loop ls (n + 1) b1 >>= _
      congr 1
      funext b'
      congr 1
      omega

theorem substr_strip (inner : Str) :
    substr ('<' :: inner ++ ['>']) (some 1) (size_minus ('<' :: inner ++ ['>']).length 2)
      = .ok inner := by
  simp [substr, size_minus]

theorem inner_eq (i : Str) : inner ('<' :: i ++ ['>']) = i := by
  simp [inner]

theorem tag_regex_valid_shape (line : Str) (h : regex_match tag_regex line = true) :
    ∃ i, line = '<' :: i ++ ['>'] ∧ i ≠ [] ∧ (re_open.Matches i ∨ re_close.Matches i) := by
  obtain ⟨i, hl, hc⟩ := matches_tag_regex line (regex_match_sound _ _ h)
  refine ⟨i, hl, ?_, hc⟩
  rcases hc with ho | hcl
  · obtain ⟨w, u, v, rfl, hw, _⟩ := matches_re_open i ho
    simp [hw]
  · obtain ⟨w, rfl, _⟩ := matches_re_close i hcl
    simp

/-- Every line `</NAME>` with a non-empty `NAME` free of whitespace is accepted by the tag
pattern and taken for a closing tag with that name. -/
theorem closing_form_accepted (name : Str) (hne : name ≠ [])
    (h : ∀ c ∈ name, isspace c = false) :
    regex_match tag_regex ('<' :: '/' :: name ++ ['>']) = true ∧
      is_closing ('<' :: '/' :: name ++ ['>']) = true ∧
      closing_name ('<' :: '/' :: name ++ ['>']) = name := by
  refine ⟨(regex_match_iff _ _).2 ?_, ?_, ?_⟩
  · have hclose : re_close.Matches ('/' :: name) :=
      .seq _ _ ['/'] name ((matches_lit_iff _ _).2 rfl) (matches_re_name_of name hne h)
    exact .seq _ _ ['<'] (('/' :: name) ++ ['>']) ((matches_lit_iff _ _).2 rfl)
      (.seq _ _ ('/' :: name) ['>'] (.alt_right _ _ _ hclose) ((matches_lit_iff _ _).2 rfl))
  · have := inner_eq ('/' :: name)
    simp only [List.cons_append] at this
    simp [is_closing, this]
  · have := inner_eq ('/' :: name)
    simp only [List.cons_append] at this
    simp [closing_name, this]

theorem build_step_invalid (b : Builder) (n : Nat) (line : Str)
    (h : regex_match tag_regex line = false) :
    build_step b n line = err_and_exit "Syntax error".toList n := by
  simp [build_step, h]

theorem build_step_valid (b : Builder) (n : Nat) (line : Str)
    (h : regex_match tag_regex line = true) :
    build_step b n line
      = if is_closing line then
          (if closing_name line ≠ b.curr.name then
            err_and_exit ("Closing inexisting tag: ".toList ++ closing_name line) n
          else .ok b.to_parent)
        else open_tag Tag.empty (inner line) >>= fun t => .ok ⟨t, b.curr :: b.up⟩ := by
  obtain ⟨i, rfl, hi, _⟩ := tag_regex_valid_shape line h
  unfold build_step
  rw [h]
  have h1 := substr_strip i
  simp only [is_closing, closing_name, inner_eq]
  simp only [Bool.not_true, Bool.false_eq_true, if_false, h1]
  cases i with
  | nil => exact absurd rfl hi
  | cons c cs =>
    simp [substr, size_minus, bind, Except.bind, pure, Except.pure, Builder.new_child]

theorem substr_zero_find (l : Str) (c : Char) :
    substr l (some 0) (find l c) = .ok (l.takeWhile (fun x => x ≠ c)) := by
  have key : ∀ l : Str, (match find l c with
      | none => l
      | some k => l.take k) = l.takeWhile (fun x => x ≠ c) := by
    intro l
    induction l with
    | nil => simp [find]
    | cons x xs ih =>
      by_cases hx : x = c
      · simp [find, hx]
      · simp only [find, hx, if_false]
        cases hf : find xs c with
        | none => simp [hf] at ih ⊢; simp [List.takeWhile, hx, ← ih]
        | some k => simp [hf] at ih ⊢; simp [List.takeWhile, hx, ← ih]
  unfold substr
  simp only [gt_iff_lt, Nat.not_lt_zero, if_false, List.drop_zero]
  rw [← key l]
  cases find l c <;> rfl

theorem not_space_not_trim (c : Char) (h : isspace c = false) : c ∉ trim_set := by
  simp only [isspace, Bool.or_eq_false_iff, decide_eq_false_iff_not] at h
  simp only [trim_set, List.mem_cons, List.mem_singleton, List.not_mem_nil, or_false]
  tauto

theorem find_last_not_of_ge (set : List Char) (s : Str) (j : Nat) (c : Char)
    (hj : s.get? j = some c) (hc : c ∉ set) :
    ∃ m, find_last_not_of s set = some m ∧ j ≤ m := by
  induction s generalizing j with
  | nil => simp at hj
  | cons x xs ih =>
    cases j with
    | zero =>
      simp at hj
      subst hj
      simp only [find_last_not_of]
      cases find_last_not_of xs set with
      | none => exact ⟨0, by simp [hc], le_refl _⟩
      | some i => exact ⟨i + 1, rfl, by omega⟩
    | succ j =>
      simp at hj
      obtain ⟨m, hm, hle⟩ := ih j (by simpa using hj)
      exact ⟨m + 1, by simp [find_last_not_of, hm], by omega⟩

theorem takeWhile_append_stop (p : Char → Bool) (w r : Str) (hw : ∀ c ∈ w, p c = true)
    (hr : r = [] ∨ ∃ c r', r = c :: r' ∧ p c = false) :
    (w ++ r).takeWhile p = w := by
  induction w with
  | nil =>
    rcases hr with rfl | ⟨c, r', rfl, hc⟩ <;> simp [List.takeWhile, *]
  | cons x xs ih =>
    have hx := hw x (by simp)
    have := ih (fun c hc => hw c (by simp [hc]))
    simp [List.takeWhile, hx, this]

/-- What `trim` returns on text that starts with a name: the name followed by a prefix of
the rest. -/
theorem trim_name (w r : Str) (hne : w ≠ []) (hw : ∀ c ∈ w, isspace c = false) :
    ∃ m, trim (w ++ r) = .ok (w ++ r.take m) := by
  have hlast : (w ++ r).get? (w.length - 1) = some (w.getLast hne) := by
    rw [List.getLast_eq_getElem]
    have hlt : w.length - 1 < w.length := by
      cases w with
      | nil => exact absurd rfl hne
      | cons _ _ => simp
    simp [List.getElem?_append_left hlt, List.getElem?_eq_getElem hlt]
  obtain ⟨k, hk, hle⟩ := find_last_not_of_ge trim_set (w ++ r) _ _ hlast
    (not_space_not_trim _ (hw _ (List.getLast_mem hne)))
  have hlen : w.length ≤ k + 1 := by omega
  refine ⟨k + 1 - w.length, ?_⟩
  have hr : rtrim (w ++ r) = .ok (w ++ r.take (k + 1 - w.length)) := by
    simp only [rtrim, substr, hk, pos_succ, gt_iff_lt, Nat.not_lt_zero, if_false, List.drop_zero]
    rw [List.take_append_eq_append_take, List.take_of_length_le hlen]
  cases w with
  | nil => exact absurd rfl hne
  | cons x xs =>
    have hx := not_space_not_trim x (hw x (by simp))
    simp only [trim, hr]
    show ltrim _ = _
    simp [ltrim, find_first_not_of, hx, substr]

theorem open_tag_ok (curr : Tag) (i : Str) (t : Tag) (h : open_tag curr i = .ok t) :
    ∃ l attrs, trim i = .ok l ∧
      t = .mk (l.takeWhile (fun c => c ≠ ' ')) curr.children attrs := by
  unfold open_tag at h
  cases ht : trim i with
  | error e => simp [ht, bind, Except.bind] at h
  | ok l =>
    simp only [ht, bind, Except.bind, substr_zero_find] at h
    cases ha : attr_loop ((erase0 l (find l ' ')).length + 1) (erase0 l (find l ' '))
        curr.attrs with
    | error e => simp [ha] at h
    | ok attrs =>
      simp only [ha, pure, Except.pure, Except.ok.injEq] at h
      exact ⟨l, attrs, rfl, h.symm⟩

theorem open_tag_name (curr : Tag) (i : Str) (t : Tag) (hm : re_open.Matches i)
    (h : open_tag curr i = .ok t) :
    t.name = i.takeWhile (fun c => c ≠ ' ') ∧ t.children = curr.children := by
  obtain ⟨l, attrs, hl, rfl⟩ := open_tag_ok curr i t h
  obtain ⟨w, u, v, rfl, hne, hw, hu, hv⟩ := matches_re_open i hm
  obtain ⟨m, hm'⟩ := trim_name w (u ++ v) hne hw
  rw [hm'] at hl
  cases hl
  have hwp : ∀ c ∈ w, (fun c : Char => decide (c ≠ ' ')) c = true := by
    intro c hc
    have := hw c hc
    simp only [isspace, Bool.or_eq_false_iff, decide_eq_false_iff_not] at this
    simp [this.1.1.1.1.1]
  have hr : u ++ v = [] ∨
      ∃ c r', u ++ v = c :: r' ∧ (fun c : Char => decide (c ≠ ' ')) c = false := by
    rcases hu with rfl | ⟨⟨u', rfl⟩, _⟩
    · cases v with
      | nil => exact .inl rfl
      | cons c cs => exact .inr ⟨c, cs, rfl, by simp [hv c (by simp)]⟩
    · exact .inr ⟨' ', u' ++ v, rfl, by simp⟩
  have hr' : (u ++ v).take m = [] ∨ ∃ c r', (u ++ v).take m = c :: r' ∧
      (fun c : Char => decide (c ≠ ' ')) c = false := by
    rcases hr with h0 | ⟨c, r', h1, hc⟩
    · left; simp [h0]
    · cases m with
      | zero => left; simp
      | succ m => right; exact ⟨c, r'.take m, by simp [h1], hc⟩
  refine ⟨?_, rfl⟩
  simp only [Tag.name]
  rw [takeWhile_append_stop _ w _ hwp hr', takeWhile_append_stop _ w _ hwp hr]

theorem build_step_ok_cases (b b1 : Builder) (n : Nat) (line : Str)
    (h : build_step b n line = .ok b1) :
    regex_match tag_regex line = true ∧
      ((is_closing line = true ∧ closing_name line = b.curr.name ∧ b1 = b.to_parent) ∨
       (is_closing line = false ∧
          ∃ t, open_tag Tag.empty (inner line) = .ok t ∧ b1 = ⟨t, b.curr :: b.up⟩)) := by
  cases hv : regex_match tag_regex line with
  | false => rw [build_step_invalid b n line hv] at h; cases h
  | true =>
    refine ⟨rfl, ?_⟩
    rw [build_step_valid b n line hv] at h
    cases hc : is_closing line with
    | true =>
      left
      simp only [hc, if_true] at h
      by_cases hn : closing_name line = b.curr.name
      · simp only [hn, ne_eq, not_true_eq_false, if_false, Except.ok.injEq] at h
        exact ⟨rfl, hn, h.symm⟩
      · simp [hn, err_and_exit] at h
    | false =>
      right
      simp only [hc, Bool.false_eq_true, if_false] at h
      cases ho : open_tag Tag.empty (inner line) with
      | error e => simp [ho, bind, Except.bind] at h
      | ok t =>
        simp only [ho, bind, Except.bind, Except.ok.injEq] at h
        exact ⟨rfl, t, rfl, h.symm⟩

theorem to_parent_up_length (b : Builder) : b.to_parent.up.length = b.up.length - 1 := by
  unfold Builder.to_parent
  cases h : b.up <;> simp [h]

theorem build_loop_depth (lines : List Str) (n : Nat) (b b' : Builder)
    (h : build_loop lines n b = .ok b') :
    b'.up.length = open_depth lines b.up.length := by
  induction lines generalizing n b with
  | nil => simp only [build_loop, Except.ok.injEq] at h; simp [open_depth, h]
  | cons l ls ih =>
    simp only [build_loop] at h
    cases hs : build_step b (n + 1) l with
    | error e => simp [hs, bind, Except.bind] at h
    | ok b1 =>
      simp only [hs, bind, Except.bind] at h
      have := ih _ _ h
      obtain ⟨_, ⟨hc, _, rfl⟩ | ⟨hc, t, _, rfl⟩⟩ := build_step_ok_cases _ _ _ _ hs
      · simp [open_depth, hc, this, to_parent_up_length]
      · simp [open_depth, hc, this]

theorem count_list_append (a b : List Tag) :
    Tag.count_list (a ++ b) = Tag.count_list a + Tag.count_list b := by
  induction a with
  | nil => simp [Tag.count_list]
  | cons x xs ih => simp [Tag.count_list, ih]; omega

theorem count_eq (t : Tag) : t.count = 1 + Tag.count_list t.children := by
  cases t; simp [Tag.count, Tag.children]

/-- The number of nodes the builder holds: the open node, its ancestors and all they contain. -/
theorem to_parent_count (b : Builder) :
    Tag.count_list (b.to_parent.curr :: b.to_parent.up) = Tag.count_list (b.curr :: b.up) := by
  unfold Builder.to_parent
  cases h : b.up with
  | nil => simp [h]
  | cons p ps =>
    simp only [Tag.count_list, Tag.count, count_list_append, count_eq p]
    omega

theorem build_loop_count (lines : List Str) (n : Nat) (b b' : Builder)
    (h : build_loop lines n b = .ok b') :
    Tag.count_list (b'.curr :: b'.up) = Tag.count_list (b.curr :: b.up) + opening_lines lines := by
  induction lines generalizing n b with
  | nil => simp only [build_loop, Except.ok.injEq] at h; simp [opening_lines, h]
  | cons l ls ih =>
    simp only [build_loop] at h
    cases hs : build_step b (n + 1) l with
    | error e => simp [hs, bind, Except.bind] at h
    | ok b1 =>
      simp only [hs, bind, Except.bind] at h
      have := ih _ _ h
      obtain ⟨_, ⟨hc, _, rfl⟩ | ⟨hc, t, ht, rfl⟩⟩ := build_step_ok_cases _ _ _ _ hs
      · rw [this, to_parent_count]
        simp [opening_lines, List.filter, hc]
      · obtain ⟨l', attrs, _, rfl⟩ := open_tag_ok _ _ _ ht
        rw [this]
        simp only [opening_lines, List.filter, hc, Bool.not_false, List.length_cons,
          Tag.count_list, Tag.count]
        omega

theorem build_tag_tree_ok_iff (input : Str) (root : Tag) :
    build_tag_tree input = .ok root ↔
      ∃ b, build_loop (getlines input) 0 Builder.init = .ok b ∧ b.up = [] ∧ b.curr = root := by
  unfold build_tag_tree
  cases hb : build_loop (getlines input) 0 Builder.init with
  | error e => simp [bind, Except.bind]
  | ok b =>
    simp only [bind, Except.bind, Except.ok.injEq, exists_eq_left']
    cases hu : b.up with
    | nil => simp [pure, Except.pure]
    | cons p ps => simp [err_and_exit]

theorem substr_error (str : Str) (pos n : Option Nat) (e : Failure)
    (h : substr str pos n = .error e) : e = .out_of_range := by
  unfold substr at h
  cases pos with
  | none => simp only [Except.error.injEq] at h; exact h.symm
  | some p =>
    simp only at h
    split at h
    · simp only [Except.error.injEq] at h; exact h.symm
    · cases n <;> simp at h

theorem trim_error (str : Str) (e : Failure) (h : trim str = .error e) :
    e = .out_of_range := by
  unfold trim at h
  cases hr : rtrim str with
  | error e' =>
    simp only [hr, bind, Except.bind, Except.error.injEq] at h
    subst h
    exact substr_error _ _ _ _ hr
  | ok r =>
    simp only [hr, bind, Except.bind] at h
    exact substr_error _ _ _ _ h

theorem bind_trim_error (x : Except Failure Str) (e : Failure)
    (hx : ∀ e', x = .error e' → e' = .out_of_range) (h : (x >>= trim) = .error e) :
    e = .out_of_range := by
  cases x with
  | error e' =>
    simp only [bind, Except.bind, Except.error.injEq] at h
    subst h
    exact hx _ rfl
  | ok v =>
    simp only [bind, Except.bind] at h
    exact trim_error _ _ h

/-- The attribute loop only fails by an uncaught `std::out_of_range`. -/
theorem attr_loop_error (fuel : Nat) (line : Str) (attrs : List (Str × Str)) (e : Failure)
    (h : attr_loop fuel line attrs = .error e) : e = .out_of_range := by
  induction fuel generalizing line attrs with
  | zero => simp [attr_loop] at h
  | succ fuel ih =>
    simp only [attr_loop] at h
    cases hs : regex_search attr_val_regex line with
    | none => simp [hs] at h
    | some suffix =>
      simp only [hs] at h
      cases h1 : trim line with
      | error e1 =>
        simp only [h1, bind, Except.bind, Except.error.injEq] at h
        subst h
        exact trim_error _ _ h1
      | ok l2 =>
        simp only [h1, bind, Except.bind] at h
        cases h2 : (substr l2 (some 0) (find l2 '=') >>= trim) with
        | error e2 =>
          simp only [bind, Except.bind] at h2
          simp only [h2, Except.error.injEq] at h
          subst h
          exact bind_trim_error _ _ (fun e' he' => substr_error _ _ _ _ he') h2
        | ok attr =>
          simp only [bind, Except.bind] at h2
          simp only [h2] at h
          cases h3 : trim (erase0 l2 (some (pos_succ (find l2 '=')))) with
          | error e3 =>
            simp only [h3, Except.error.injEq] at h
            subst h
            exact trim_error _ _ h3
          | ok l3 =>
            simp only [h3] at h
            cases h4 : (substr (erase0 l3 (some (pos_succ (find l3 '"')))) (some 0)
                (find (erase0 l3 (some (pos_succ (find l3 '"')))) '"') >>= trim) with
            | error e4 =>
              simp only [bind, Except.bind] at h4
              simp only [h4, Except.error.injEq] at h
              subst h
              exact bind_trim_error _ _ (fun e' he' => substr_error _ _ _ _ he') h4
            | ok val =>
              simp only [bind, Except.bind] at h4
              simp only [h4] at h
              exact ih _ _ h

/-- Name and attribute extraction only fails by an uncaught `std::out_of_range`. -/
theorem open_tag_error (curr : Tag) (line : Str) (e : Failure)
    (h : open_tag curr line = .error e) : e = .out_of_range := by
  unfold open_tag at h
  cases h1 : trim line with
  | error e1 =>
    simp only [h1, bind, Except.bind, Except.error.injEq] at h
    subst h
    exact trim_error _ _ h1
  | ok l =>
    simp only [h1, bind, Except.bind, substr_zero_find] at h
    cases h2 : attr_loop ((erase0 l (find l ' ')).length + 1) (erase0 l (find l ' '))
        curr.attrs with
    | error e2 =>
      simp only [h2, Except.error.injEq] at h
      subst h
      exact attr_loop_error _ _ _ _ h2
    | ok attrs => simp [h2, pure, Except.pure] at h

/-- The rounds of the line loop only exit with a line number of at least one. -/
theorem build_step_error_ne (b : Builder) (n : Nat) (line : Str) (e : Failure)
    (h : build_step b (n + 1) line = .error e) :
    e ≠ .exit1 "Missing closing tag".toList (-1) := by
  intro he
  cases hv : regex_match tag_regex line with
  | false =>
    rw [build_step_invalid b _ line hv, he] at h
    simp only [err_and_exit, Except.error.injEq, Failure.exit1.injEq] at h
    omega
  | true =>
    rw [build_step_valid b _ line hv] at h
    cases hc : is_closing line with
    | true =>
      simp only [hc, if_true] at h
      by_cases hn : closing_name line = b.curr.name
      · simp [hn] at h
      · rw [he] at h
        simp only [hn, ne_eq, not_false_eq_true, if_true, err_and_exit, Except.error.injEq,
          Failure.exit1.injEq] at h
        omega
    | false =>
      simp only [hc, Bool.false_eq_true, if_false] at h
      cases ho : open_tag Tag.empty (inner line) with
      | ok t => simp [ho, bind, Except.bind] at h
      | error e' =>
        simp only [ho, bind, Except.bind, Except.error.injEq] at h
        have := open_tag_error _ _ _ ho
        rw [h, he] at this
        cases this

theorem build_loop_error_ne (lines : List Str) (n : Nat) (b : Builder) (e : Failure)
    (h : build_loop lines n b = .error e) :
    e ≠ .exit1 "Missing closing tag".toList (-1) := by
  induction lines generalizing n b with
  | nil => simp [build_loop] at h
  | cons l ls ih =>
    simp only [build_loop] at h
    cases hs : build_step b (n + 1) l with
    | error e' =>
      simp only [hs, bind, Except.bind, Except.error.injEq] at h
      subst h
      exact build_step_error_ne b n l _ hs
    | ok b1 =>
      simp only [hs, bind, Except.bind] at h
      exact ih _ _ h

/-- An error in the round for line `k` is the result of `build_tag_tree` when the lines before
it are processed without error. -/
theorem build_tag_tree_step_error (input : Str) (pre post : List Str) (line : Str)
    (b : Builder) (e : Failure)
    (hlines : getlines input = pre ++ line :: post)
    (hpre : build_loop pre 0 Builder.init = .ok b)
    (hstep : build_step b (pre.length + 1) line = .error e) :
    build_tag_tree input = .error e := by
  unfold build_tag_tree
  rw [hlines, build_loop_append, hpre]
  simp only [bind, Except.bind, build_loop, Nat.zero_add, hstep]

/-- Whenever `build_tag_tree` returns a tree, the root has as many descendants as the input
has opening-tag lines. -/
theorem build_tag_tree_descendants (input : Str) (root : Tag)
    (h : build_tag_tree input = .ok root) :
    root.descendants = opening_lines (getlines input) := by
  obtain ⟨b, hb, hu, rfl⟩ := (build_tag_tree_ok_iff input _).1 h
  have := build_loop_count _ _ _ _ hb
  rw [hu] at this
  simp only [Tag.count_list, Builder.init, Tag.empty, Tag.count, count_eq b.curr] at this
  unfold Tag.descendants
  omega

theorem valid_opening_matches (l : Str) (hv : regex_match tag_regex l = true)
    (hc : is_closing l = false) : re_open.Matches (inner l) := by
  obtain ⟨i, rfl, _, ho | hcl⟩ := tag_regex_valid_shape l hv
  · rw [inner_eq]; exact ho
  · obtain ⟨w, rfl, _⟩ := matches_re_close i hcl
    rw [is_closing, inner_eq] at hc
    simp at hc

theorem to_parent_names (b : Builder) (p : Tag) (ps : List Tag) (h : b.up = p :: ps) :
    b.to_parent.curr.name = p.name ∧ b.to_parent.up = ps := by
  unfold Builder.to_parent
  simp [h, Tag.name]

theorem to_parent_root (b : Builder) (h : b.up = []) : b.to_parent = b := by
  unfold Builder.to_parent
  simp [h]

theorem extracts_ok (l : Str) (h : extracts l = true) :
    ∃ t, open_tag Tag.empty (inner l) = .ok t := by
  unfold extracts at h
  cases ho : open_tag Tag.empty (inner l) with
  | ok t => exact ⟨t, rfl⟩
  | error e => simp [ho] at h

theorem nesting_loop (lines : List Str) (n : Nat) (b : Builder) (stack : List Str)
    (hnames : (b.curr :: b.up).map Tag.name = stack ++ [[]])
    (hvalid : ∀ l ∈ lines, regex_match tag_regex l = true)
    (hext : ∀ l ∈ lines, is_closing l = false → extracts l = true) :
    (∃ b', build_loop lines n b = .ok b' ∧ b'.up = []) ↔
      accepted_nesting_from stack lines = true := by
  induction lines generalizing n b stack with
  | nil =>
    have hlen := congrArg List.length hnames
    simp only [List.map_cons, List.length_cons, List.length_map, List.length_append,
      List.length_nil] at hlen
    simp only [build_loop, Except.ok.injEq, exists_eq_left', accepted_nesting_from,
      List.isEmpty_iff]
    constructor
    · intro h; rw [h] at hlen; exact List.eq_nil_of_length_eq_zero (by simpa using hlen.symm)
    · intro h; rw [h] at hlen; exact List.eq_nil_of_length_eq_zero (by simpa using hlen)
  | cons l ls ih =>
    have hv := hvalid l (by simp)
    have hvs : ∀ x ∈ ls, regex_match tag_regex x = true := fun x hx => hvalid x (by simp [hx])
    have hes : ∀ x ∈ ls, is_closing x = false → extracts x = true :=
      fun x hx => hext x (by simp [hx])
    simp only [build_loop, build_step_valid b (n + 1) l hv]
    cases hc : is_closing l with
    | true =>
      simp only [if_true, accepted_nesting_from, hc]
      cases stack with
      | nil =>
        simp only [List.map_cons, List.nil_append, List.cons.injEq, List.map_eq_nil_iff] at hnames
        by_cases hn : closing_name l = []
        · simp only [hn, hnames.1, ne_eq, not_true_eq_false, if_false, bind, Except.bind,
            decide_True, Bool.true_and, to_parent_root b hnames.2]
          exact ih (n + 1) b [] (by simp [hnames.1, hnames.2]) hvs hes
        · have hn' : closing_name l ≠ b.curr.name := by rw [hnames.1]; exact hn
          simp [hn, hn', err_and_exit, bind, Except.bind]
      | cons top rest =>
        simp only [List.map_cons, List.cons_append, List.cons.injEq] at hnames
        obtain ⟨hcur, hup⟩ := hnames
        cases hbu : b.up with
        | nil => simp [hbu] at hup
        | cons p ps =>
          obtain ⟨hp1, hp2⟩ := to_parent_names b p ps hbu
          by_cases hn : closing_name l = top
          · simp only [hn, hcur, ne_eq, not_true_eq_false, if_false, bind, Except.bind,
              decide_True, Bool.true_and]
            refine ih (n + 1) b.to_parent rest ?_ hvs hes
            rw [hbu] at hup
            simp only [List.map_cons, hp1, hp2]
            simpa using hup
          · have hn' : closing_name l ≠ b.curr.name := by rw [hcur]; exact hn
            simp [hn, hn', err_and_exit, bind, Except.bind]
    | false =>
      obtain ⟨t, ht⟩ := extracts_ok l (hext l (by simp) hc)
      have hname := (open_tag_name _ _ t (valid_opening_matches l hv hc) ht).1
      simp only [Bool.false_eq_true, if_false, ht, bind, Except.bind, accepted_nesting_from, hc]
      refine ih (n + 1) ⟨t, b.curr :: b.up⟩ (opening_name l :: stack) ?_ hvs hes
      simp only [List.map_cons, List.cons_append, List.cons.injEq] at hnames ⊢
      exact ⟨hname, hnames⟩

/-- On input whose lines are all accepted by the tag pattern, pass extraction without a fault
and nest as the builder requires, `build_tag_tree` returns a root, and the root has as many
descendants as the input has opening-tag lines. -/
theorem build_tag_tree_returns (input : Str)
    (hvalid : ∀ l ∈ getlines input, regex_match tag_regex l = true)
    (hext : ∀ l ∈ getlines input, is_closing l = false → extracts l = true)
    (hnest : accepted_nesting_from [] (getlines input) = true) :
    ∃ root, build_tag_tree input = .ok root ∧
      root.descendants = opening_lines (getlines input) := by
  obtain ⟨b, hb, hu⟩ :=
    (nesting_loop (getlines input) 0 Builder.init [] rfl hvalid hext).2 hnest
  have h := (build_tag_tree_ok_iff input b.curr).2 ⟨b, hb, hu, rfl⟩
  exact ⟨b.curr, h, build_tag_tree_descendants input b.curr h⟩

/-! ## The rounds of the attribute loop -/

theorem matches_attr_val_regex_ne (s : Str) (h : attr_val_regex.Matches s) : s ≠ [] := by
  unfold attr_val_regex at h
  obtain ⟨u, v, rfl, _, h⟩ := (matches_seq_iff _ _ _).1 h
  obtain ⟨p, w, rfl, hp, _⟩ := (matches_seq_iff _ _ _).1 h
  have := matches_re_pair_quote p hp
  intro hnil
  simp only [List.append_eq_nil] at hnil
  rw [hnil.2.1] at this
  simp at this

theorem regex_search_suffix (r : Regex) (s rest : Str) (h : regex_search r s = some rest) :
    ∃ a pre, s = a ++ (pre ++ rest) ∧ r.Matches pre := by
  induction s with
  | nil =>
    simp only [regex_search] at h
    obtain ⟨pre, hs, hm⟩ := r.run_sound [] rest (List.mem_of_mem_head? h)
    exact ⟨[], pre, by simpa using hs, hm⟩
  | cons c cs ih =>
    simp only [regex_search] at h
    cases hh : (r.run (c :: cs)).head? with
    | some x =>
      simp only [hh, Option.some.injEq] at h
      subst h
      obtain ⟨pre, hs, hm⟩ := r.run_sound (c :: cs) x (List.mem_of_mem_head? hh)
      exact ⟨[], pre, by simpa using hs, hm⟩
    | none =>
      simp only [hh] at h
      obtain ⟨a, pre, hs, hm⟩ := ih h
      exact ⟨c :: a, pre, by simp [hs], hm⟩

/-- Every round of the attribute loop continues with a strictly shorter text. -/
theorem attr_search_shorter (line suffix : Str)
    (h : regex_search attr_val_regex line = some suffix) : suffix.length < line.length := by
  obtain ⟨a, pre, rfl, hm⟩ := regex_search_suffix _ _ _ h
  have := List.length_pos.2 (matches_attr_val_regex_ne pre hm)
  simp only [List.length_append]
  omega

/-- The bound on the rounds of `attr_loop` is never reached: any bound above the length of the
text gives the same result. -/
theorem attr_loop_fuel (f1 f2 : Nat) (line : Str) (attrs : List (Str × Str))
    (h1 : line.length < f1) (h2 : line.length < f2) :
    attr_loop f1 line attrs = attr_loop f2 line attrs := by
  induction f1 generalizing f2 line attrs with
  | zero => omega
  | succ f1 ih =>
    cases f2 with
    | zero => omega
    | succ f2 =>
      simp only [attr_loop]
      cases hs : regex_search attr_val_regex line with
      | none => rfl
      | some suffix =>
        have hlt := attr_search_shorter line suffix hs
        simp only []
        have key : ∀ a, attr_loop f1 suffix a = attr_loop f2 suffix a :=
          fun a => ih f2 suffix a (by omega) (by omega)
        simp only [key]

/-! ## The scan of `get_attr_val` -/

theorem get_attr_loop_no_tilde (tag_tree : Tag) (input : Str) (cs : List Char)
    (h : '~' ∉ cs) (tag : Option Tag) (token : Str) (res : Option Str) :
    get_attr_loop tag_tree input cs tag token res = .ok res := by
  induction cs generalizing tag token with
  | nil => rfl
  | cons c cs ih =>
    have hc : c ≠ '~' := fun e => h (by simp [e])
    have hcs : '~' ∉ cs := fun e => h (by simp [e])
    unfold get_attr_loop
    rw [if_neg hc]
    by_cases hd : c = '.'
    · rw [if_pos hd]
      cases descend tag_tree tag token with
      | none => rfl
      | some t => exact ih hcs _ _
    · rw [if_neg hd]
      exact ih hcs _ _

theorem get_attr_loop_seg (tag_tree : Tag) (input : Str) (seg rest : List Char)
    (h : ∀ c ∈ seg, is_delim c = false) (tag : Option Tag) (token : Str) (res : Option Str) :
    get_attr_loop tag_tree input (seg ++ rest) tag token res
      = get_attr_loop tag_tree input rest tag (token ++ seg) res := by
  induction seg generalizing token with
  | nil => simp
  | cons c cs ih =>
    have hc := h c (by simp)
    simp [is_delim] at hc
    have : get_attr_loop tag_tree input (c :: (cs ++ rest)) tag token res
        = get_attr_loop tag_tree input (cs ++ rest) tag (token ++ [c]) res := by
      rw [get_attr_loop, if_neg hc.2, if_neg hc.1]
    rw [List.cons_append, this, ih (fun x hx => h x (by simp [hx]))]
    simp


theorem find_append_tilde (a b : Str) (c : Char) (h : c ∉ a) :
    find (a ++ c :: b) c = some a.length := by
  induction a with
  | nil => simp [find]
  | cons x xs ih =>
    have hx : x ≠ c := fun e => h (by simp [e])
    have hxs : c ∉ xs := fun e => h (by simp [e])
    simp [find, hx, ih hxs]

theorem substr_after (a b : Str) :
    substr (a ++ '~' :: b) (some (a.length + 1)) none = .ok b := by
  simp [substr]

theorem get_attr_loop_dot (tag_tree : Tag) (input rest : Str) (tag : Option Tag) (token : Str)
    (res : Option Str) :
    get_attr_loop tag_tree input ('.' :: rest) tag token res
      = match descend tag_tree tag token with
        | none => .ok res
        | some t => get_attr_loop tag_tree input rest (some t) [] res := by
  rw [get_attr_loop, if_neg (by decide), if_pos rfl]

theorem get_attr_loop_walk (tag_tree : Tag) (input rest : Str) (res : Option Str)
    (pre : List Str) (h : ∀ s ∈ pre, ∀ c ∈ s, is_delim c = false) (t t' : Tag)
    (hw : walk t pre = some t') :
    get_attr_loop tag_tree input (pre.flatMap (· ++ ['.']) ++ rest) (some t) [] res
      = get_attr_loop tag_tree input rest (some t') [] res := by
  induction pre generalizing t with
  | nil => simp [walk] at hw; simp [hw]
  | cons s ss ih =>
    simp only [walk] at hw
    cases hf : find_child t s with
    | none => simp [hf] at hw
    | some c =>
      simp [hf] at hw
      simp only [List.flatMap_cons, List.append_assoc]
      rw [get_attr_loop_seg _ _ _ _ (h s (by simp))]
      simp only [List.singleton_append, List.nil_append]
      rw [get_attr_loop_dot]
      simp only [descend, hf]
      exact ih (fun x hx => h x (by simp [hx])) c hw

theorem walk_append (t : Tag) (a b : List Str) :
    walk t (a ++ b) = (walk t a).bind (fun c => walk c b) := by
  induction a generalizing t with
  | nil => simp [walk]
  | cons s ss ih =>
    simp only [List.cons_append, walk]
    cases find_child t s with
    | none => simp
    | some c => simp [ih]

theorem intercalate_snoc (pre : List Str) (s : Str) :
    List.intercalate ['.'] (pre ++ [s]) = pre.flatMap (· ++ ['.']) ++ s := by
  induction pre with
  | nil => simp [List.intercalate]
  | cons x xs ih =>
    cases xs with
    | nil => simp [List.intercalate, List.intersperse]
    | cons y ys =>
      simp only [List.intercalate, List.cons_append, List.intersperse, List.flatten_cons,
        List.flatMap_cons, List.append_assoc] at ih ⊢
      simp only [List.append_eq] at ih ⊢
      rw [ih]


theorem get_attr_loop_tilde (tag_tree : Tag) (input rest : Str) (tag : Option Tag) (token : Str)
    (res : Option Str) :
    get_attr_loop tag_tree input ('~' :: rest) tag token res
      = match descend tag_tree tag token with
        | none => .ok res
        | some t =>
            (substr input (some (pos_succ (find input '~'))) none) >>= fun token =>
              get_attr_loop tag_tree input rest (some t) token
                (match attrs_find t.attrs token with
                  | some v => some v
                  | none => res) := by
  rw [get_attr_loop, if_pos rfl]

theorem matches_attr_val_regex_quote (s : Str) (h : attr_val_regex.Matches s) : '"' ∈ s := by
  unfold attr_val_regex at h
  obtain ⟨u, v, rfl, _, h⟩ := (matches_seq_iff _ _ _).1 h
  obtain ⟨p, w, rfl, hp, _⟩ := (matches_seq_iff _ _ _).1 h
  have := matches_re_pair_quote p hp
  simp [this]

/-- Text without a double quote holds no attribute pair for `regex_search`. -/
theorem regex_search_no_quote (s : Str) (h : '"' ∉ s) : regex_search attr_val_regex s = none := by
  cases hs : regex_search attr_val_regex s with
  | none => rfl
  | some rest =>
    obtain ⟨a, pre, rfl, hm⟩ := regex_search_suffix _ _ _ hs
    exact absurd (by simp [matches_attr_val_regex_quote pre hm]) h

theorem attr_loop_no_quote (fuel : Nat) (line : Str) (attrs : List (Str × Str))
    (h : '"' ∉ line) : attr_loop fuel line attrs = .ok attrs := by
  cases fuel with
  | zero => rfl
  | succ n => simp [attr_loop, regex_search_no_quote line h]

theorem erase0_find (l : Str) (c : Char) :
    erase0 l (find l c) = l.dropWhile (fun x => x ≠ c) := by
  induction l with
  | nil => simp [find, erase0]
  | cons x xs ih =>
    by_cases hx : x = c
    · simp [find, erase0, hx, List.dropWhile]
    · rw [List.dropWhile_cons_of_pos (by simpa using hx)]
      simp only [find, hx, if_false]
      cases hf : find xs c with
      | none =>
        simp only [hf, erase0] at ih
        simpa [erase0] using ih
      | some k =>
        simp only [hf, erase0] at ih
        simpa [erase0] using ih

/-- An opening line without attribute pairs: a name followed by spaces only. -/
theorem open_tag_no_pairs (curr : Tag) (name : Str) (k : Nat) (hne : name ≠ [])
    (hname : ∀ c ∈ name, isspace c = false) :
    open_tag curr (name ++ List.replicate k ' ') = .ok (.mk name curr.children curr.attrs) := by
  obtain ⟨m, hm⟩ := trim_name name (List.replicate k ' ') hne hname
  have hwp : ∀ c ∈ name, (fun c : Char => decide (c ≠ ' ')) c = true := by
    intro c hc
    have := hname c hc
    simp only [isspace, Bool.or_eq_false_iff, decide_eq_false_iff_not] at this
    simp [this.1.1.1.1.1]
  have htake : (List.replicate k ' ').take m = List.replicate (min m k) ' ' := by
    simp [List.take_replicate]
  have hstop : (List.replicate (min m k) ' ') = [] ∨
      ∃ c r', List.replicate (min m k) ' ' = c :: r' ∧
        (fun c : Char => decide (c ≠ ' ')) c = false := by
    cases hmk : min m k with
    | zero => left; rfl
    | succ j => right; exact ⟨' ', List.replicate j ' ', rfl, by simp⟩
  have hq : '"' ∉ (name ++ List.replicate (min m k) ' ').dropWhile (fun x => x ≠ ' ') := by
    intro hmem
    have hd : (name ++ List.replicate (min m k) ' ').dropWhile (fun x => decide (x ≠ ' '))
        = List.replicate (min m k) ' ' := by
      have h1 := List.takeWhile_append_dropWhile (fun x => decide (x ≠ ' '))
        (name ++ List.replicate (min m k) ' ')
      rw [takeWhile_append_stop _ name _ hwp hstop] at h1
      exact List.append_cancel_left h1
    rw [hd] at hmem
    have := List.eq_of_mem_replicate hmem
    exact absurd this (by decide)
  unfold open_tag
  rw [hm, htake]
  simp only [bind, Except.bind, substr_zero_find, erase0_find]
  rw [attr_loop_no_quote _ _ _ hq, takeWhile_append_stop _ name _ hwp hstop]
  rfl

theorem named_eq (t : Tag) : t.named = (!t.name.isEmpty && Tag.named_list t.children) := by
  cases t; simp [Tag.named, Tag.name, Tag.children]

theorem named_list_append (a b : List Tag) :
    Tag.named_list (a ++ b) = (Tag.named_list a && Tag.named_list b) := by
  induction a with
  | nil => simp [Tag.named_list]
  | cons x xs ih => simp [Tag.named_list, ih, Bool.and_assoc]

theorem named_list_mem (cs : List Tag) (h : Tag.named_list cs = true) (c : Tag) (hc : c ∈ cs) :
    c.named = true := by
  induction cs with
  | nil => simp at hc
  | cons x xs ih =>
    simp only [Tag.named_list, Bool.and_eq_true] at h
    simp only [List.mem_cons] at hc
    rcases hc with rfl | hc
    · exact h.1
    · exact ih h.2 hc

/-- Below a node whose descendants all have names, the empty token names no child. -/
theorem find_child_empty (t : Tag) (h : Tag.named_list t.children = true) :
    find_child t [] = none := by
  unfold find_child
  rw [List.find?_eq_none]
  intro c hc
  have := named_list_mem _ h c hc
  rw [named_eq] at this
  simp only [Bool.and_eq_true, Bool.not_eq_true', List.isEmpty_eq_false] at this
  simpa using this.1

theorem find_child_named (t c : Tag) (s : Str) (h : Tag.named_list t.children = true)
    (hf : find_child t s = some c) : Tag.named_list c.children = true := by
  have hc : c ∈ t.children := List.mem_of_find?_eq_some hf
  have := named_list_mem _ h c hc
  rw [named_eq] at this
  simp only [Bool.and_eq_true] at this
  exact this.2

theorem named_init : Builder.init.named :=
  ⟨[], Tag.empty, rfl, by simp, rfl⟩

theorem named_to_parent (b : Builder) (h : b.named) : b.to_parent.named := by
  obtain ⟨rest, root, hfr, hrest, hroot⟩ := h
  unfold Builder.to_parent
  cases hu : b.up with
  | nil => simp only; exact ⟨rest, root, hfr, hrest, hroot⟩
  | cons p ps =>
    simp only
    rw [hu] at hfr
    cases rest with
    | nil => simp at hfr
    | cons c rest1 =>
      simp only [List.cons_append, List.cons.injEq] at hfr
      obtain ⟨hc, hfr⟩ := hfr
      have hcn := hrest c (by simp)
      have hcurr : b.curr.named = true := by
        rw [named_eq, hc]
        simp only [Bool.and_eq_true, Bool.not_eq_true', List.isEmpty_eq_false]
        exact ⟨by simpa using hcn.1, hcn.2⟩
      cases rest1 with
      | nil =>
        simp only [List.nil_append, List.cons.injEq] at hfr
        obtain ⟨hp, hps⟩ := hfr
        refine ⟨[], .mk p.name (p.children ++ [b.curr]) p.attrs, by simp [hps], by simp, ?_⟩
        simp only [Tag.children, named_list_append, Tag.named_list, hcurr, Bool.and_true]
        rw [hp]; exact hroot
      | cons q rest2 =>
        simp only [List.cons_append, List.cons.injEq] at hfr
        obtain ⟨hp, hps⟩ := hfr
        have hq := hrest q (by simp)
        refine ⟨.mk p.name (p.children ++ [b.curr]) p.attrs :: rest2, root, by simp [hps], ?_,
          hroot⟩
        intro t ht
        simp only [List.mem_cons] at ht
        rcases ht with rfl | ht
        · simp only [Tag.name, Tag.children, named_list_append, Tag.named_list, hcurr,
            Bool.and_true]
          rw [hp]; exact hq
        · exact hrest t (by simp [ht])

theorem named_build_step (b b1 : Builder) (n : Nat) (line : Str) (h : b.named)
    (hs : build_step b n line = .ok b1) : b1.named := by
  obtain ⟨hv, ⟨_, _, rfl⟩ | ⟨hc, t, ht, rfl⟩⟩ := build_step_ok_cases _ _ _ _ hs
  · exact named_to_parent b h
  · obtain ⟨rest, root, hfr, hrest, hroot⟩ := h
    have hm := valid_opening_matches line hv hc
    obtain ⟨hname, hch⟩ := open_tag_name _ _ t hm ht
    obtain ⟨w, u, v, hin, hwne, hw, -, -⟩ := matches_re_open _ hm
    refine ⟨t :: rest, root, by simp [hfr], ?_, hroot⟩
    intro x hx
    simp only [List.mem_cons] at hx
    rcases hx with rfl | hx
    · refine ⟨?_, by rw [hch]; rfl⟩
      rw [hname, hin]
      cases w with
      | nil => exact absurd rfl hwne
      | cons c cs =>
        have hcs := hw c (by simp)
        have : c ≠ ' ' := by
          intro e; subst e; simp [isspace] at hcs
        simp [List.takeWhile, this]
    · exact hrest x hx

theorem named_build_loop (lines : List Str) (n : Nat) (b b' : Builder) (h : b.named)
    (hl : build_loop lines n b = .ok b') : b'.named := by
  induction lines generalizing n b with
  | nil => simp only [build_loop, Except.ok.injEq] at hl; exact hl ▸ h
  | cons l ls ih =>
    simp only [build_loop] at hl
    cases hs : build_step b (n + 1) l with
    | error e => simp [hs, bind, Except.bind] at hl
    | ok b1 =>
      simp only [hs, bind, Except.bind] at hl
      exact ih _ _ (named_build_step b b1 _ l h hs) hl

/-- Every node below the root of a tree that `build_tag_tree` returns has a non-empty name. -/
theorem build_tag_tree_named (input : Str) (root : Tag) (h : build_tag_tree input = .ok root) :
    Tag.named_list root.children = true := by
  obtain ⟨b, hb, hu, rfl⟩ := (build_tag_tree_ok_iff input _).1 h
  obtain ⟨rest, r, hfr, -, hroot⟩ := named_build_loop _ _ _ _ named_init hb
  rw [hu] at hfr
  cases rest with
  | nil =>
    simp only [List.nil_append, List.cons.injEq, and_true] at hfr
    rw [hfr]; exact hroot
  | cons c cs =>
    have := congrArg List.length hfr
    simp at this

theorem to_parent_frames_names (b : Builder) (P : Str → Prop)
    (h : ∀ t ∈ b.curr :: b.up, P t.name) :
    ∀ t ∈ b.to_parent.curr :: b.to_parent.up, P t.name := by
  unfold Builder.to_parent
  cases hu : b.up with
  | nil => simpa [hu] using h
  | cons p ps =>
    intro t ht
    simp only [List.mem_cons] at ht
    rcases ht with rfl | ht
    · exact h p (by simp [hu])
    · exact h t (by simp [hu, ht])

/-- No node the builder holds has a space in its name. -/
theorem build_loop_names_no_space (lines : List Str) (n : Nat) (b b' : Builder)
    (h : ∀ t ∈ b.curr :: b.up, ' ' ∉ t.name)
    (hl : build_loop lines n b = .ok b') : ∀ t ∈ b'.curr :: b'.up, ' ' ∉ t.name := by
  induction lines generalizing n b with
  | nil => simp only [build_loop, Except.ok.injEq] at hl; exact hl ▸ h
  | cons l ls ih =>
    simp only [build_loop] at hl
    cases hs : build_step b (n + 1) l with
    | error e => simp [hs, bind, Except.bind] at hl
    | ok b1 =>
      simp only [hs, bind, Except.bind] at hl
      refine ih _ _ ?_ hl
      obtain ⟨hv, ⟨_, _, rfl⟩ | ⟨hc, t, ht, rfl⟩⟩ := build_step_ok_cases _ _ _ _ hs
      · exact to_parent_frames_names b (fun s => ' ' ∉ s) h
      · intro x hx
        simp only [List.mem_cons] at hx
        rcases hx with rfl | hx
        · rw [(open_tag_name _ _ x (valid_opening_matches l hv hc) ht).1]
          intro hmem
          have := List.mem_takeWhile_imp hmem
          simp at this
        · exact h x (by simpa using hx)

/-- An accepted line stays accepted when a `/` is put in front of its name. -/
theorem slash_accepted (inner : Str) (hv : regex_match tag_regex ('<' :: inner ++ ['>']) = true)
    (hsp : ' ' ∈ inner) :
    regex_match tag_regex ('<' :: '/' :: inner ++ ['>']) = true := by
  obtain ⟨i, hl, _, hcase⟩ := tag_regex_valid_shape _ hv
  have hi : i = inner := by
    have h2 : inner ++ ['>'] = i ++ ['>'] := (List.cons.inj hl).2
    exact (List.append_cancel_right h2).symm
  subst hi
  have hopen : re_open.Matches i := by
    rcases hcase with ho | hcl
    · exact ho
    · obtain ⟨w, rfl, _, hw⟩ := matches_re_close _ hcl
      simp only [List.mem_cons] at hsp
      rcases hsp with h | h
      · exact absurd h (by decide)
      · have := hw _ h; simp [isspace] at this
  have hopen' : re_open.Matches ('/' :: i) := by
    unfold re_open at hopen ⊢
    obtain ⟨w, r, rfl, hw, hr⟩ := (matches_seq_iff _ _ _).1 hopen
    obtain ⟨hw1, hw2⟩ := matches_re_name w hw
    have : re_name.Matches ('/' :: w) :=
      matches_re_name_of _ (by simp) (by
        intro c hc
        simp only [List.mem_cons] at hc
        rcases hc with rfl | hc
        · decide
        · exact hw2 c hc)
    exact .seq _ _ ('/' :: w) r this hr
  refine (regex_match_iff _ _).2 ?_
  exact .seq _ _ ['<'] (('/' :: i) ++ ['>']) ((matches_lit_iff _ _).2 rfl)
    (.seq _ _ ('/' :: i) ['>'] (.alt_left _ _ _ hopen') ((matches_lit_iff _ _).2 rfl))

/-! ## More on the scan of `get_attr_val` -/

theorem ref_child_eq (cs : List Tag) (s : Str) :
    ref_child cs s = cs.find? (fun t => t.name = s) := by
  induction cs with
  | nil => rfl
  | cons c cs ih =>
    by_cases h : c.name = s
    · simp [ref_child, h]
    · simp [ref_child, h, ih]

theorem ref_descend_eq (t : Tag) (segs : List Str) : ref_descend t segs = walk t segs := by
  induction segs generalizing t with
  | nil => rfl
  | cons s ss ih =>
    simp only [ref_descend, walk, find_child, ref_child_eq]
    cases t.children.find? (fun t => t.name = s) with
    | none => rfl
    | some c => simpa using ih c

theorem ref_attr_eq (attrs : List (Str × Str)) (a : Str) : ref_attr attrs a = attrs_find attrs a := by
  induction attrs with
  | nil => rfl
  | cons p ps ih =>
    obtain ⟨k, v⟩ := p
    by_cases h : k = a
    · simp [ref_attr, attrs_find, h]
    · simp only [ref_attr, h, if_false, ih, attrs_find]
      rw [List.find?_cons_of_neg _ (by simpa using h)]

/-- A descent that fails before the segments are used up ends the scan with the result so far. -/
theorem get_attr_loop_walk_none (tag_tree : Tag) (input rest : Str) (res : Option Str)
    (pre : List Str) (h : ∀ s ∈ pre, ∀ c ∈ s, is_delim c = false) (t : Tag)
    (hw : walk t pre = none) :
    get_attr_loop tag_tree input (pre.flatMap (· ++ ['.']) ++ rest) (some t) [] res = .ok res := by
  induction pre generalizing t with
  | nil => simp [walk] at hw
  | cons s ss ih =>
    simp only [walk] at hw
    simp only [List.flatMap_cons, List.append_assoc]
    rw [get_attr_loop_seg _ _ _ _ (h s (by simp))]
    simp only [List.singleton_append, List.nil_append]
    rw [get_attr_loop_dot]
    cases hf : find_child t s with
    | none => simp [descend, hf]
    | some c =>
      simp only [hf, Option.some_bind] at hw
      simp only [descend, hf]
      exact ih (fun x hx => h x (by simp [hx])) c hw

/-- The scan up to and including the first `~` of a query `s1. ... .sn~r`: when the descent
succeeds and ends at `t`, the scan goes on through `r` with the token buffer holding `r` and
the result of looking `r` up on `t`. -/
theorem get_attr_val_first_tilde (tag_tree : Tag) (segs : List Str) (r : Str)
    (hne : segs ≠ [])
    (hsegs : ∀ s ∈ segs, ∀ c ∈ s, is_delim c = false) :
    get_attr_val tag_tree (path_query segs r)
      = match walk tag_tree segs with
        | none => .ok none
        | some t =>
            get_attr_loop tag_tree (path_query segs r) r (some t) r (attrs_find t.attrs r) := by
  obtain ⟨pre, last, rfl⟩ : ∃ pre last, segs = pre ++ [last] :=
    ⟨segs.dropLast, segs.getLast hne, (List.dropLast_append_getLast hne).symm⟩
  have hpre : ∀ s ∈ pre, ∀ c ∈ s, is_delim c = false := fun s hs => hsegs s (by simp [hs])
  have hlast : ∀ c ∈ last, is_delim c = false := hsegs last (by simp)
  have hnt : '~' ∉ pre.flatMap (· ++ ['.']) ++ last := by
    intro hmem
    simp only [List.mem_append, List.mem_flatMap, List.mem_singleton] at hmem
    rcases hmem with ⟨s, hs, hc | hc⟩ | hc
    · have := hpre s hs _ hc; simp [is_delim] at this
    · exact absurd hc (by decide)
    · have := hlast _ hc; simp [is_delim] at this
  rw [walk_append]
  unfold get_attr_val path_query
  rw [intercalate_snoc]
  have hfind : find (pre.flatMap (· ++ ['.']) ++ last ++ '~' :: r) '~'
      = some (pre.flatMap (· ++ ['.']) ++ last).length := find_append_tilde _ _ _ hnt
  generalize hin : pre.flatMap (· ++ ['.']) ++ last ++ '~' :: r = input at hfind
  have hsub : substr input (some (pos_succ (find input '~'))) none = .ok r := by
    rw [hfind, ← hin]; exact substr_after _ _
  conv_lhs => arg 3; rw [← hin, List.append_assoc]
  cases hw0 : walk tag_tree pre with
  | none =>
    rw [get_attr_loop_walk_none _ _ _ _ pre hpre tag_tree hw0]
    rfl
  | some t0 =>
    rw [get_attr_loop_walk _ _ _ _ pre hpre tag_tree t0 hw0, get_attr_loop_seg _ _ _ _ hlast,
      get_attr_loop_tilde]
    simp only [descend, List.nil_append, Option.some_bind, walk]
    cases hf : find_child t0 last with
    | none => rfl
    | some t1 =>
      simp only [hsub, Option.some_bind]
      show get_attr_loop tag_tree input r (some t1) r
        (match attrs_find t1.attrs r with
          | some v => some v
          | none => none) = _
      cases attrs_find t1.attrs r <;> rfl

/-- The result of a query with a single `~`. -/
theorem get_attr_val_single_tilde (tag_tree : Tag) (segs : List Str) (a : Str)
    (hne : segs ≠ [])
    (hsegs : ∀ s ∈ segs, ∀ c ∈ s, is_delim c = false)
    (ha : '~' ∉ a) :
    get_attr_val tag_tree (path_query segs a)
      = .ok ((walk tag_tree segs).bind (fun t => attrs_find t.attrs a)) := by
  rw [get_attr_val_first_tilde tag_tree segs a hne hsegs]
  cases walk tag_tree segs with
  | none => rfl
  | some t => simp only [Option.some_bind]; exact get_attr_loop_no_tilde _ _ _ ha _ _ _

/-- A failed descent at a delimiter ends the scan with the result held so far. -/
theorem get_attr_loop_miss (tag_tree : Tag) (input rest : Str) (d : Char) (t : Tag)
    (token : Str) (res : Option Str) (hd : d = '.' ∨ d = '~')
    (hmiss : find_child t token = none) :
    get_attr_loop tag_tree input (d :: rest) (some t) token res = .ok res := by
  rcases hd with rfl | rfl
  · rw [get_attr_loop_dot]; simp [descend, hmiss]
  · rw [get_attr_loop_tilde]; simp [descend, hmiss]

/-- Before the first `~`, with no result yet, an empty segment after a `.` ends the scan with
not found when all nodes below the current tag have names. -/
theorem get_attr_loop_empty_segment (tag_tree : Tag) (input : Str) (y rest : Str) (d : Char)
    (hy : '~' ∉ y) (hd : d = '.' ∨ d = '~') (t : Tag)
    (ht : Tag.named_list t.children = true) (token : Str) :
    get_attr_loop tag_tree input (y ++ '.' :: d :: rest) (some t) token none = .ok none := by
  induction y generalizing t token with
  | nil =>
    rw [List.nil_append, get_attr_loop_dot]
    simp only [descend]
    cases hf : find_child t token with
    | none => rfl
    | some t' =>
      exact get_attr_loop_miss _ _ _ _ _ _ _ hd
        (find_child_empty t' (find_child_named t t' token ht hf))
  | cons c cs ih =>
    have hc : c ≠ '~' := fun e => hy (by simp [e])
    have hcs : '~' ∉ cs := fun e => hy (by simp [e])
    by_cases hdot : c = '.'
    · subst hdot
      rw [List.cons_append, get_attr_loop_dot]
      simp only [descend]
      cases hf : find_child t token with
      | none => rfl
      | some t' => exact ih hcs t' (find_child_named t t' token ht hf) []
    · rw [List.cons_append, get_attr_loop, if_neg hc, if_neg hdot]
      exact ih hcs t ht _

/-! ## The pair pattern on a well-formed pair -/

theorem star_run_chr (p : Char → Bool) (n : Nat) (s : Str) (h : s.length ≤ n) :
    star_run (Regex.run (.chr p)) n s = greedy_tails p s := by
  induction s generalizing n with
  | nil =>
    cases n with
    | zero => rfl
    | succ n =>
      have hrun : (Regex.chr p).run [] = [] := by simp [Regex.run]
      simp only [star_run, hrun]
      simp [greedy_tails]
  | cons c cs ih =>
    cases n with
    | zero => simp at h
    | succ n =>
      have hlen : cs.length ≤ n := by simpa using h
      by_cases hp : p c = true
      · have hrun : (Regex.chr p).run (c :: cs) = [cs] := by simp [Regex.run, hp]
        simp only [star_run, hrun]
        simp [greedy_tails, hp, ih n hlen]
      · have hrun : (Regex.chr p).run (c :: cs) = [] := by simp [Regex.run, hp]
        simp only [star_run, hrun]
        simp [greedy_tails, hp]

theorem run_star_chr (p : Char → Bool) (s : Str) :
    (Regex.star (.chr p)).run s = greedy_tails p s := by
  simp only [Regex.run]
  exact star_run_chr p _ s (Nat.le_refl _)

theorem run_plus_chr (p : Char → Bool) (c : Char) (cs : Str) (hp : p c = true) :
    (Regex.plus (.chr p)).run (c :: cs) = greedy_tails p cs := by
  have h := run_star_chr p cs
  simp only [Regex.plus, Regex.run] at h ⊢
  simp [hp, h]

theorem greedy_tails_head (p : Char → Bool) (w t : Str) (hw : ∀ c ∈ w, p c = true)
    (ht : t = [] ∨ ∃ c t', t = c :: t' ∧ p c = false) :
    ∃ rest, greedy_tails p (w ++ t) = t :: rest := by
  induction w with
  | nil =>
    rcases ht with rfl | ⟨c, t', rfl, hc⟩
    · exact ⟨[], rfl⟩
    · exact ⟨[], by simp [greedy_tails, hc]⟩
  | cons c w ih =>
    obtain ⟨rest, hrest⟩ := ih (fun d hd => hw d (List.mem_cons_of_mem _ hd))
    refine ⟨rest ++ [c :: (w ++ t)], ?_⟩
    simp [greedy_tails, hw c (List.mem_cons_self _ _), hrest]

theorem greedy_tails_stop (p : Char → Bool) (t : Str)
    (ht : t = [] ∨ ∃ c t', t = c :: t' ∧ p c = false) : greedy_tails p t = [t] := by
  rcases ht with rfl | ⟨c, t', rfl, hc⟩
  · rfl
  · simp [greedy_tails, hc]

theorem head_flatMap_of_head (l : List Str) (f : Str → List Str) (x y : Str)
    (hl : l.head? = some x) (hf : (f x).head? = some y) : (l.flatMap f).head? = some y := by
  cases l with
  | nil => simp at hl
  | cons a l =>
    simp only [List.head?_cons, Option.some.injEq] at hl
    subst hl
    cases hfx : f a with
    | nil => simp [hfx] at hf
    | cons b r =>
      simp only [hfx, List.head?_cons, Option.some.injEq] at hf
      subst hf
      simp [List.flatMap_cons, hfx]

theorem flatMap_nil_of_forall (l : List Str) (f : Str → List Str) (h : ∀ x ∈ l, f x = []) :
    l.flatMap f = [] := by
  induction l with
  | nil => rfl
  | cons a l ih =>
    simp [List.flatMap_cons, h a (List.mem_cons_self _ _),
      ih (fun x hx => h x (List.mem_cons_of_mem _ hx))]

theorem regex_search_of_head (r : Regex) (s x : Str) (h : (r.run s).head? = some x) :
    regex_search r s = some x := by
  cases s with
  | nil => simpa [regex_search] using h
  | cons c cs => simp [regex_search, h]

theorem run_re_spaces (s : Str) : re_spaces.run s = greedy_tails (fun x => x = ' ') s :=
  run_star_chr _ s

theorem run_spaces_seq_head (g : Regex) (b : Nat) (z y : Str) (hz : z.head? ≠ some ' ')
    (hg : (g.run z).head? = some y) :
    ((re_spaces.seq g).run (List.replicate b ' ' ++ z)).head? = some y := by
  have ht : z = [] ∨ ∃ c t', z = c :: t' ∧ (fun x : Char => decide (x = ' ')) c = false := by
    cases z with
    | nil => exact Or.inl rfl
    | cons c t' =>
      refine Or.inr ⟨c, t', rfl, ?_⟩
      have : c ≠ ' ' := fun e => hz (by simp [e])
      simpa using this
  obtain ⟨rest, hrest⟩ := greedy_tails_head (fun x => x = ' ') (List.replicate b ' ') z
    (by intro c hc; simp [List.eq_of_mem_replicate hc]) ht
  have : (re_spaces.seq g).run (List.replicate b ' ' ++ z)
      = (re_spaces.run (List.replicate b ' ' ++ z)).flatMap g.run := rfl
  rw [this, run_re_spaces, hrest]
  exact head_flatMap_of_head _ _ z y rfl hg

theorem run_lit_seq (g : Regex) (c : Char) (z : Str) :
    ((Regex.lit c).seq g).run (c :: z) = g.run z := by
  simp [Regex.run, Regex.lit]

theorem lead_char_spaces (s1 rest : Str) (c : Char) (h : ∀ x ∈ s1, x = ' ') (hc : c ≠ ' ') :
    lead_char (s1 ++ c :: rest) = some c := by
  induction s1 with
  | nil => simp [lead_char, hc]
  | cons x s1 ih =>
    have hx : x = ' ' := h x (List.mem_cons_self _ _)
    subst hx
    have := ih (fun y hy => h y (List.mem_cons_of_mem _ hy))
    simpa [lead_char] using this

theorem run_eq_sign_nil (g : Regex) (x : Str) (h : lead_char x ≠ some '=') :
    (re_spaces.seq ((Regex.lit '=').seq g)).run x = [] := by
  cases hrun : (re_spaces.seq ((Regex.lit '=').seq g)).run x with
  | nil => rfl
  | cons r rs =>
    exfalso
    have hmem : r ∈ (re_spaces.seq ((Regex.lit '=').seq g)).run x := by simp [hrun]
    obtain ⟨pre, hx, hm⟩ := Regex.run_sound _ _ _ hmem
    obtain ⟨s1, s2, rfl, h1, h2⟩ := (matches_seq_iff _ _ _).1 hm
    obtain ⟨s3, s4, rfl, h3, _⟩ := (matches_seq_iff _ _ _).1 h2
    have h3' := (matches_lit_iff _ _).1 h3
    subst h3'
    apply h
    rw [hx]
    have := lead_char_spaces s1 (s4 ++ r) '=' (matches_re_spaces s1 h1) (by decide)
    simpa using this

theorem lead_char_value (y T : Str) (hy : '=' ∉ y) : lead_char (y ++ '"' :: T) ≠ some '=' := by
  induction y with
  | nil => simp [lead_char]
  | cons c y ih =>
    have hc : c ≠ '=' := fun e => hy (by simp [e])
    have hy' : '=' ∉ y := fun h => hy (List.mem_cons_of_mem _ h)
    by_cases hsp : c = ' '
    · subst hsp
      have := ih hy'
      simpa [lead_char] using this
    · simp only [lead_char, List.cons_append, List.dropWhile_cons, decide_eq_true_eq, hsp,
        if_false, List.head?_cons, ne_eq, Option.some.injEq]
      exact hc

theorem greedy_tails_value (y T : Str) (hy : '=' ∉ y)
    (hT1 : T = [] ∨ ∃ t, T = ' ' :: t) (hT2 : lead_char T ≠ some '=') :
    ∀ x ∈ greedy_tails (fun c => !isspace c || c = '=') (y ++ '"' :: T),
      lead_char x ≠ some '=' := by
  have hstop : greedy_tails (fun c => !isspace c || c = '=') T = [T] := by
    apply greedy_tails_stop
    rcases hT1 with h | ⟨t, h⟩
    · exact Or.inl h
    · exact Or.inr ⟨' ', t, h, by decide⟩
  induction y with
  | nil =>
    intro x hx
    have hq : (fun c : Char => !isspace c || decide (c = '=')) '"' = true := by decide
    simp only [List.nil_append, greedy_tails, hq, if_true, hstop, List.mem_append,
      List.mem_singleton] at hx
    rcases hx with rfl | rfl
    · exact hT2
    · simp [lead_char]
  | cons c y ih =>
    have hy' : '=' ∉ y := fun h => hy (List.mem_cons_of_mem _ h)
    intro x hx
    simp only [List.cons_append, greedy_tails] at hx
    split at hx
    · simp only [List.mem_append, List.mem_singleton] at hx
      rcases hx with hx | rfl
      · exact ih hy' x hx
      · exact lead_char_value (c :: y) T hy
    · simp only [List.mem_singleton] at hx
      subst hx
      exact lead_char_value (c :: y) T hy

theorem run_quoted_head (Q T : Str) (hne : Q ≠ []) (hQ : '"' ∉ Q) :
    (((Regex.plus (.chr (fun c => c ≠ '"'))).seq (.lit '"')).run (Q ++ '"' :: T)).head?
      = some T := by
  cases Q with
  | nil => exact absurd rfl hne
  | cons q Q =>
    have hq : q ≠ '"' := fun e => hQ (by simp [e])
    have hQ' : ∀ c ∈ Q, (fun c : Char => decide (c ≠ '"')) c = true := by
      intro c hc
      have : c ≠ '"' := fun e => hQ (List.mem_cons_of_mem _ (e ▸ hc))
      simpa using this
    obtain ⟨rest, hrest⟩ := greedy_tails_head (fun c => c ≠ '"') Q ('"' :: T) hQ'
      (Or.inr ⟨'"', T, rfl, by decide⟩)
    have hrun : ((Regex.plus (.chr (fun c => c ≠ '"'))).seq (.lit '"')).run (q :: Q ++ '"' :: T)
        = ((Regex.plus (.chr (fun c => c ≠ '"'))).run (q :: (Q ++ '"' :: T))).flatMap
            (Regex.lit '"').run := rfl
    rw [hrun, run_plus_chr _ q _ (by simpa using hq), hrest]
    exact head_flatMap_of_head _ _ ('"' :: T) T rfl (by simp [Regex.run, Regex.lit])

theorem head_append_of_head (a b : List Str) (x : Str) (h : a.head? = some x) :
    (a ++ b).head? = some x := by
  cases a with
  | nil => simp at h
  | cons y ys => simpa using h

theorem run_pair_tail_head (b c : Nat) (Q T : Str) (hQne : Q ≠ []) (hQ1 : '"' ∉ Q) :
    ((re_spaces.seq ((Regex.lit '=').seq (re_spaces.seq ((Regex.lit '"').seq
        ((Regex.plus (.chr (fun c => c ≠ '"'))).seq (.lit '"')))))).run
      (List.replicate b ' ' ++ ('=' :: (List.replicate c ' ' ++ ('"' :: (Q ++ '"' :: T)))))).head?
      = some T := by
  apply run_spaces_seq_head _ b _ T (by simp)
  rw [run_lit_seq]
  apply run_spaces_seq_head _ c _ T (by simp)
  rw [run_lit_seq]
  exact run_quoted_head Q T hQne hQ1

theorem greedy_tails_after_eq (c : Nat) (Q T : Str) (hQ2 : '=' ∉ Q)
    (hT1 : T = [] ∨ ∃ t, T = ' ' :: t) (hT2 : lead_char T ≠ some '=') :
    ∀ x ∈ greedy_tails (fun c => !isspace c || c = '=')
        (List.replicate c ' ' ++ ('"' :: (Q ++ '"' :: T))),
      lead_char x ≠ some '=' := by
  cases c with
  | zero =>
    have hy : '=' ∉ '"' :: Q := by
      intro h
      rcases List.mem_cons.1 h with h | h
      · exact absurd h (by decide)
      · exact hQ2 h
    simpa using greedy_tails_value ('"' :: Q) T hy hT1 hT2
  | succ c =>
    intro x hx
    rw [greedy_tails_stop _ _ (Or.inr ⟨' ', List.replicate c ' ' ++ ('"' :: (Q ++ '"' :: T)),
      by simp [List.replicate_succ], by decide⟩)] at hx
    simp only [List.mem_singleton] at hx
    subst hx
    rw [lead_char_spaces (List.replicate (c + 1) ' ') _ '"'
      (fun x hx => List.eq_of_mem_replicate hx) (by decide)]
    decide

theorem greedy_tails_cons_pos (p : Char → Bool) (c : Char) (cs : Str) (h : p c = true) :
    greedy_tails p (c :: cs) = greedy_tails p cs ++ [c :: cs] := by
  simp [greedy_tails, h]

theorem greedy_key_head (f : Str → List Str) (k : Str) (b c : Nat) (Q T : Str)
    (hk : ∀ ch ∈ k, (fun c : Char => !isspace c || decide (c = '=')) ch = true)
    (hQ2 : '=' ∉ Q) (hT1 : T = [] ∨ ∃ t, T = ' ' :: t) (hT2 : lead_char T ≠ some '=')
    (hfE : (f (List.replicate b ' ' ++
      ('=' :: (List.replicate c ' ' ++ ('"' :: (Q ++ '"' :: T)))))).head? = some T)
    (hfnil : ∀ x, lead_char x ≠ some '=' → f x = []) :
    ((greedy_tails (fun c => !isspace c || c = '=')
      (k ++ (List.replicate b ' ' ++
        ('=' :: (List.replicate c ' ' ++ ('"' :: (Q ++ '"' :: T))))))).flatMap f).head?
      = some T := by
  induction k with
  | nil =>
    cases b with
    | zero =>
      rw [List.nil_append, List.replicate_zero, List.nil_append,
        greedy_tails_cons_pos _ _ _ (by decide), List.flatMap_append,
        flatMap_nil_of_forall _ f (fun x hx => hfnil x
          (greedy_tails_after_eq c Q T hQ2 hT1 hT2 x hx))]
      simpa using hfE
    | succ b =>
      rw [List.nil_append, greedy_tails_stop _ _ (Or.inr ⟨' ', List.replicate b ' ' ++
        ('=' :: (List.replicate c ' ' ++ ('"' :: (Q ++ '"' :: T)))),
        by simp [List.replicate_succ], by decide⟩)]
      simpa using hfE
  | cons d k ih =>
    rw [List.cons_append, greedy_tails_cons_pos _ _ _ (hk d (List.mem_cons_self _ _)),
      List.flatMap_append]
    exact head_append_of_head _ _ T (ih (fun x hx => hk x (List.mem_cons_of_mem _ hx)))

theorem run_re_pair_head (key : Str) (b c : Nat) (Q T : Str)
    (hne : key ≠ []) (hkey : ∀ ch ∈ key, isspace ch = false ∧ ch ≠ '=')
    (hQne : Q ≠ []) (hQ1 : '"' ∉ Q) (hQ2 : '=' ∉ Q)
    (hT1 : T = [] ∨ ∃ t, T = ' ' :: t) (hT2 : lead_char T ≠ some '=') :
    (re_pair.run (key ++ (List.replicate b ' ' ++
      ('=' :: (List.replicate c ' ' ++ ('"' :: (Q ++ '"' :: T))))))).head? = some T := by
  have hNS : ∀ ch ∈ key, (fun c : Char => !isspace c || decide (c = '=')) ch = true := by
    intro ch hch
    simp [(hkey ch hch).1]
  cases key with
  | nil => exact absurd rfl hne
  | cons kc k =>
    have hrun : re_pair.run (kc :: k ++ (List.replicate b ' ' ++
          ('=' :: (List.replicate c ' ' ++ ('"' :: (Q ++ '"' :: T))))))
        = ((Regex.plus (.chr (fun c => !isspace c || c = '='))).run
            (kc :: (k ++ (List.replicate b ' ' ++
              ('=' :: (List.replicate c ' ' ++ ('"' :: (Q ++ '"' :: T)))))))).flatMap
          (re_spaces.seq ((Regex.lit '=').seq (re_spaces.seq ((Regex.lit '"').seq
            ((Regex.plus (.chr (fun c => c ≠ '"'))).seq (.lit '"')))))).run := rfl
    rw [hrun, run_plus_chr _ kc _ (hNS kc (List.mem_cons_self _ _))]
    exact greedy_key_head _ k b c Q T (fun x hx => hNS x (List.mem_cons_of_mem _ hx))
      hQ2 hT1 hT2 (run_pair_tail_head b c Q T hQne hQ1) (fun x hx => run_eq_sign_nil _ x hx)

/-- The search for the next pair on a line that starts with a well-formed pair: the match is
that pair with the spaces around it, and `sm.suffix()` is the text after those spaces. -/
theorem regex_search_pair (a : Nat) (key : Str) (b c : Nat) (Q : Str) (n : Nat) (T : Str)
    (hne : key ≠ []) (hkey : ∀ ch ∈ key, isspace ch = false ∧ ch ≠ '=')
    (hQne : Q ≠ []) (hQ1 : '"' ∉ Q) (hQ2 : '=' ∉ Q)
    (hT : T = [] ∨ (0 < n ∧ ∃ ch t, T = ch :: t ∧ ch ≠ ' ' ∧ ch ≠ '=')) :
    regex_search attr_val_regex (List.replicate a ' ' ++ (key ++ (List.replicate b ' ' ++
      ('=' :: (List.replicate c ' ' ++ ('"' :: (Q ++ '"' :: (List.replicate n ' ' ++ T))))))))
      = some T := by
  apply regex_search_of_head
  have hT0 : T.head? ≠ some ' ' := by
    rcases hT with rfl | ⟨_, ch, t, rfl, h1, _⟩
    · simp
    · simpa using h1
  have hT1 : List.replicate n ' ' ++ T = [] ∨ ∃ t, List.replicate n ' ' ++ T = ' ' :: t := by
    rcases hT with rfl | ⟨hn, _⟩
    · cases n with
      | zero => exact Or.inl rfl
      | succ n => exact Or.inr ⟨List.replicate n ' ' ++ [], by simp [List.replicate_succ]⟩
    · obtain ⟨m, rfl⟩ := Nat.exists_eq_succ_of_ne_zero (Nat.pos_iff_ne_zero.1 hn)
      exact Or.inr ⟨List.replicate m ' ' ++ T, by simp [List.replicate_succ]⟩
  have hT2 : lead_char (List.replicate n ' ' ++ T) ≠ some '=' := by
    rcases hT with rfl | ⟨_, ch, t, rfl, h1, h2⟩
    · simp [lead_char, List.dropWhile_replicate]
    · rw [lead_char_spaces _ _ ch (fun x hx => List.eq_of_mem_replicate hx) h1]
      simpa using h2
  have hk0 : (key ++ (List.replicate b ' ' ++ ('=' :: (List.replicate c ' ' ++
      ('"' :: (Q ++ '"' :: (List.replicate n ' ' ++ T))))))).head? ≠ some ' ' := by
    cases key with
    | nil => exact absurd rfl hne
    | cons kc k =>
      have := (hkey kc (List.mem_cons_self _ _)).1
      intro h
      simp only [List.cons_append, List.head?_cons, Option.some.injEq] at h
      subst h
      exact absurd this (by decide)
  show ((re_spaces.seq (re_pair.seq re_spaces)).run _).head? = some T
  apply run_spaces_seq_head _ a _ T hk0
  have hrun : ∀ s, (re_pair.seq re_spaces).run s = (re_pair.run s).flatMap re_spaces.run :=
    fun _ => rfl
  rw [hrun]
  apply head_flatMap_of_head _ _ (List.replicate n ' ' ++ T) T
    (run_re_pair_head key b c Q _ hne hkey hQne hQ1 hQ2 hT1 hT2)
  rw [run_re_spaces]
  have ht : T = [] ∨ ∃ c t', T = c :: t' ∧ (fun x : Char => decide (x = ' ')) c = false := by
    rcases hT with rfl | ⟨_, ch, t, rfl, h1, _⟩
    · exact Or.inl rfl
    · exact Or.inr ⟨ch, t, rfl, by simpa using h1⟩
  obtain ⟨rest, hrest⟩ := greedy_tails_head (fun x => x = ' ') (List.replicate n ' ') T
    (by intro c hc; simp [List.eq_of_mem_replicate hc]) ht
  rw [hrest]
  rfl

/-! ## Extraction of well-formed pairs -/

theorem find_first_not_of_pad (l : Str) (c : Char) (z : Str) (set : List Char)
    (hl : ∀ x ∈ l, x ∈ set) (hc : c ∉ set) :
    find_first_not_of (l ++ c :: z) set = some l.length := by
  induction l with
  | nil => simp [find_first_not_of, hc]
  | cons x l ih =>
    have hx : x ∈ set := hl x (List.mem_cons_self _ _)
    simp [find_first_not_of, hx, ih (fun y hy => hl y (List.mem_cons_of_mem _ hy))]

theorem find_last_not_of_none (r : Str) (set : List Char) (hr : ∀ x ∈ r, x ∈ set) :
    find_last_not_of r set = none := by
  induction r with
  | nil => rfl
  | cons x r ih =>
    have hx : x ∈ set := hr x (List.mem_cons_self _ _)
    simp [find_last_not_of, ih (fun y hy => hr y (List.mem_cons_of_mem _ hy)), hx]

theorem find_last_not_of_pad (u : Str) (c : Char) (r : Str) (set : List Char)
    (hc : c ∉ set) (hr : ∀ x ∈ r, x ∈ set) :
    find_last_not_of (u ++ c :: r) set = some u.length := by
  induction u with
  | nil => simp [find_last_not_of, find_last_not_of_none r set hr, hc]
  | cons x u ih => simp [find_last_not_of, ih]

/-- `trim` on a text with whitespace around a core that starts and ends with other
characters: the result is the core. -/
theorem trim_pad (l w r : Str) (hne : w ≠ [])
    (hhead : ∀ c, w.head? = some c → c ∉ trim_set)
    (hlast : ∀ c, w.getLast? = some c → c ∉ trim_set)
    (hl : ∀ x ∈ l, x ∈ trim_set) (hr : ∀ x ∈ r, x ∈ trim_set) :
    trim (l ++ (w ++ r)) = .ok w := by
  obtain ⟨c, z, rfl⟩ : ∃ c z, w = c :: z := by
    cases w with
    | nil => exact absurd rfl hne
    | cons c z => exact ⟨c, z, rfl⟩
  obtain ⟨u, d, hud⟩ : ∃ u d, c :: z = u ++ [d] := by
    rcases List.eq_nil_or_concat (c :: z) with h | ⟨L, b, h⟩
    · exact absurd h hne
    · exact ⟨L, b, by simpa using h⟩
  have hd : d ∉ trim_set := hlast d (by rw [hud]; simp)
  have hcset : c ∉ trim_set := hhead c rfl
  have hr1 : rtrim (l ++ (c :: z ++ r)) = .ok (l ++ (c :: z)) := by
    have e : l ++ (c :: z ++ r) = (l ++ u) ++ d :: r := by rw [hud]; simp
    have e2 : l ++ (c :: z) = (l ++ u) ++ [d] := by rw [hud]; simp
    rw [e, e2]
    simp only [rtrim, find_last_not_of_pad (l ++ u) d r trim_set hd hr, pos_succ, substr]
    have e4 : List.take (l.length + u.length + 1) ((l ++ (u ++ [d])) ++ r) = l ++ (u ++ [d]) :=
      List.take_left' (by simp; omega)
    simpa using e4
  have hl1 : ltrim (l ++ (c :: z)) = .ok (c :: z) := by
    simp only [ltrim, find_first_not_of_pad l c z trim_set hl hcset, substr]
    simp
  simp only [trim, hr1, bind, Except.bind, hl1]

theorem find_head (c : Char) (z : Str) : find (c :: z) c = some 0 := by
  simp [find]

theorem getLast_quote_append (A T : Str) (hT : ('"' :: T).getLast? = some '"') :
    (A ++ '"' :: T).getLast? = some '"' := by
  rw [List.getLast?_append, hT]
  rfl

theorem option_all_true (o : Option Char) (q : Char → Bool) (h : o.all q = true) :
    ∀ c, o = some c → q c = true := by
  intro c hc
  subst hc
  simpa using h

theorem WrittenPair.well_formed_facts (p : WrittenPair) (h : p.well_formed = true) :
    (p.key ≠ [] ∧ (∀ ch ∈ p.key, isspace ch = false ∧ ch ≠ '=')) ∧
    (p.value ≠ [] ∧ (∀ ch ∈ p.value, ch ≠ '"' ∧ ch ≠ '=')) ∧
    ((∀ c, p.value.head? = some c → c ∉ trim_set) ∧
      (∀ c, p.value.getLast? = some c → c ∉ trim_set)) ∧
    ((∀ c ∈ p.pad_left, c ∈ trim_set) ∧ (∀ c ∈ p.pad_right, c ∈ trim_set)) := by
  simp only [WrittenPair.well_formed, Bool.and_eq_true, List.all_eq_true, Bool.not_eq_true',
    List.isEmpty_eq_false, bne_iff_ne, ne_eq, List.elem_eq_mem, decide_eq_true_eq] at h
  obtain ⟨⟨⟨⟨⟨⟨⟨h1, h2⟩, h3⟩, h4⟩, h5⟩, h6⟩, h7⟩, h8⟩ := h
  refine ⟨⟨h1, h2⟩, ⟨h3, h4⟩, ⟨?_, ?_⟩, ⟨h7, h8⟩⟩
  · intro c hc
    have := option_all_true _ _ h5 c hc
    simpa using this
  · intro c hc
    have := option_all_true _ _ h6 c hc
    simpa using this

theorem WrittenPair.quoted_facts (p : WrittenPair) (h : p.well_formed = true) :
    p.quoted ≠ [] ∧ '"' ∉ p.quoted ∧ '=' ∉ p.quoted := by
  obtain ⟨-, ⟨hvne, hv⟩, -, hpl, hpr⟩ := WrittenPair.well_formed_facts p h
  have hq : ∀ c, c = '"' ∨ c = '=' → c ∉ p.quoted := by
    intro c hc hmem
    simp only [WrittenPair.quoted, List.mem_append] at hmem
    rcases hmem with hmem | hmem | hmem
    · have := hpl c hmem
      rcases hc with rfl | rfl <;> exact absurd this (by decide)
    · rcases hc with rfl | rfl
      · exact (hv _ hmem).1 rfl
      · exact (hv _ hmem).2 rfl
    · have := hpr c hmem
      rcases hc with rfl | rfl <;> exact absurd this (by decide)
  refine ⟨?_, hq _ (Or.inl rfl), hq _ (Or.inr rfl)⟩
  intro hnil
  simp only [WrittenPair.quoted, List.append_eq_nil] at hnil
  exact hvne hnil.2.1

theorem drop_through (A : Str) (c : Char) (B : Str) (h : c ∉ A) :
    erase0 (A ++ c :: B) (some (pos_succ (find (A ++ c :: B) c))) = B := by
  rw [find_append_tilde A B c h]
  simp [pos_succ, erase0]

theorem substr_upto (A : Str) (c : Char) (B : Str) (h : c ∉ A) :
    substr (A ++ c :: B) (some 0) (find (A ++ c :: B) c) = .ok A := by
  rw [substr_zero_find]
  congr 1
  apply takeWhile_append_stop
  · intro x hx
    have : x ≠ c := fun e => h (e ▸ hx)
    simpa using this
  · exact Or.inr ⟨c, B, rfl, by simp⟩

/-- One round of the pair loop on a line that starts with a well-formed pair: the key and the
value of that pair are installed, and the loop goes on with `sm.suffix()`. -/
theorem attr_loop_round (fuel a : Nat) (p : WrittenPair) (T T' : Str)
    (attrs : List (Str × Str)) (hp : p.well_formed = true)
    (hT : ('"' :: T).getLast? = some '"')
    (hsearch : regex_search attr_val_regex (List.replicate a ' ' ++ (p.body ++ T)) = some T') :
    attr_loop (fuel + 1) (List.replicate a ' ' ++ (p.body ++ T)) attrs
      = attr_loop fuel T' (add_attr attrs p.key p.value) := by
  obtain ⟨⟨hkne, hkey⟩, ⟨hvne, _⟩, ⟨hvh, hvl⟩, hpl, hpr⟩ :=
    WrittenPair.well_formed_facts p hp
  obtain ⟨_, hq1, _⟩ := WrittenPair.quoted_facts p hp
  have hsp : ∀ (n : Nat), ∀ x ∈ List.replicate n ' ', x ∈ trim_set := by
    intro n x hx
    rw [List.eq_of_mem_replicate hx]
    decide
  have hkhead : ∀ c, p.key.head? = some c → c ∉ trim_set := by
    intro c hc
    exact not_space_not_trim c (hkey c (List.mem_of_mem_head? hc)).1
  have hklast : ∀ c, p.key.getLast? = some c → c ∉ trim_set := by
    intro c hc
    exact not_space_not_trim c (hkey c (List.mem_of_mem_getLast? hc)).1
  -- the shape of the line after its leading spaces
  have hX : p.body ++ T = (p.key ++ List.replicate p.pre ' ') ++
      '=' :: (List.replicate p.post ' ' ++ ('"' :: (p.quoted ++ '"' :: T))) := by
    simp [WrittenPair.body]
  have hXne : p.body ++ T ≠ [] := by
    rw [hX]
    simp
  have hXhead : ∀ c, (p.body ++ T).head? = some c → c ∉ trim_set := by
    intro c hc
    apply hkhead c
    cases hk : p.key with
    | nil => exact absurd hk hkne
    | cons k ks =>
      rw [hX, hk] at hc
      simpa using hc
  have hXlast : ∀ c, (p.body ++ T).getLast? = some c → c ∉ trim_set := by
    intro c hc
    have e : p.body ++ T = (p.key ++ (List.replicate p.pre ' ' ++
        ('=' :: (List.replicate p.post ' ' ++ ('"' :: p.quoted))))) ++ '"' :: T := by
      simp [WrittenPair.body]
    rw [e, getLast_quote_append _ T hT] at hc
    cases hc
    decide
  have h1 : trim (List.replicate a ' ' ++ (p.body ++ T)) = .ok (p.body ++ T) := by
    have := trim_pad (List.replicate a ' ') (p.body ++ T) [] hXne hXhead hXlast (hsp a)
      (by simp)
    simpa using this
  have hnoeq : '=' ∉ p.key ++ List.replicate p.pre ' ' := by
    intro h
    rcases List.mem_append.1 h with h | h
    · exact (hkey _ h).2 rfl
    · exact absurd (List.eq_of_mem_replicate h) (by decide)
  have h3 : trim (p.key ++ List.replicate p.pre ' ') = .ok p.key := by
    have := trim_pad [] p.key (List.replicate p.pre ' ') hkne hkhead hklast (by simp)
      (hsp p.pre)
    simpa using this
  have h6 : trim (List.replicate p.post ' ' ++ ('"' :: (p.quoted ++ '"' :: T)))
      = .ok ('"' :: (p.quoted ++ '"' :: T)) := by
    have := trim_pad (List.replicate p.post ' ') ('"' :: (p.quoted ++ '"' :: T)) []
      (by simp) (by intro c hc; cases hc; decide)
      (by
        intro c hc
        have e : '"' :: (p.quoted ++ '"' :: T) = ('"' :: p.quoted) ++ '"' :: T := by simp
        rw [e, getLast_quote_append _ T hT] at hc
        cases hc
        decide)
      (hsp p.post) (by simp)
    simpa using this
  have h7 : erase0 ('"' :: (p.quoted ++ '"' :: T))
      (some (pos_succ (find ('"' :: (p.quoted ++ '"' :: T)) '"'))) = p.quoted ++ '"' :: T := by
    rw [find_head]
    simp [pos_succ, erase0]
  have h9 : trim p.quoted = .ok p.value := by
    have := trim_pad p.pad_left p.value p.pad_right hvne hvh hvl hpl hpr
    simpa [WrittenPair.quoted] using this
  rw [attr_loop, hsearch]
  simp only [h1, bind, Except.bind]
  rw [hX, substr_upto _ '=' _ hnoeq, drop_through _ '=' _ hnoeq]
  simp only [h3, h6, h7, substr_upto _ '"' _ hq1, h9]

theorem body_split (p : WrittenPair) (T : Str) :
    p.body ++ T = (p.key ++ (List.replicate p.pre ' ' ++
      ('=' :: (List.replicate p.post ' ' ++ ('"' :: p.quoted))))) ++ '"' :: T := by
  simp [WrittenPair.body]

theorem pairs_text_last (ps : List WrittenPair) :
    ('"' :: pairs_text ps).getLast? = some '"' := by
  induction ps with
  | nil => rfl
  | cons p ps ih =>
    have e : '"' :: pairs_text (p :: ps)
        = ('"' :: (List.replicate (p.lead + 1) ' ' ++ (p.key ++ (List.replicate p.pre ' ' ++
          ('=' :: (List.replicate p.post ' ' ++ ('"' :: p.quoted))))))) ++
            '"' :: pairs_text ps := by
      simp [pairs_text, WrittenPair.text, WrittenPair.body]
    rw [e]
    exact getLast_quote_append _ _ ih

theorem body_head (p : WrittenPair) (T : Str) (hp : p.well_formed = true) :
    ∃ ch t, p.body ++ T = ch :: t ∧ ch ≠ ' ' ∧ ch ≠ '=' ∧ isspace ch = false := by
  obtain ⟨⟨hkne, hkey⟩, -⟩ := WrittenPair.well_formed_facts p hp
  cases hk : p.key with
  | nil => exact absurd hk hkne
  | cons k ks =>
    have hk' := hkey k (by rw [hk]; exact List.mem_cons_self _ _)
    refine ⟨k, _, by simp [WrittenPair.body, hk]; rfl, ?_, hk'.2, hk'.1⟩
    intro e
    subst e
    exact absurd hk'.1 (by decide)

theorem regex_search_body (a : Nat) (p : WrittenPair) (ps : List WrittenPair)
    (hp : ∀ q ∈ p :: ps, q.well_formed = true) :
    regex_search attr_val_regex (List.replicate a ' ' ++ (p.body ++ pairs_text ps))
      = some (match ps with
          | [] => []
          | q :: qs => q.body ++ pairs_text qs) := by
  have hpw := hp p (List.mem_cons_self _ _)
  obtain ⟨⟨hkne, hkey⟩, -⟩ := WrittenPair.well_formed_facts p hpw
  obtain ⟨hqne, hq1, hq2⟩ := WrittenPair.quoted_facts p hpw
  cases ps with
  | nil =>
    have := regex_search_pair a p.key p.pre p.post p.quoted 0 [] hkne hkey hqne hq1 hq2
      (Or.inl rfl)
    simpa [pairs_text, WrittenPair.body] using this
  | cons q qs =>
    obtain ⟨ch, t, ht, h1, h2, _⟩ := body_head q (pairs_text qs)
      (hp q (List.mem_cons_of_mem _ (List.mem_cons_self _ _)))
    have := regex_search_pair a p.key p.pre p.post p.quoted (q.lead + 1)
      (q.body ++ pairs_text qs) hkne hkey hqne hq1 hq2
      (Or.inr ⟨Nat.succ_pos _, ch, t, ht, h1, h2⟩)
    simpa [pairs_text, WrittenPair.text, WrittenPair.body] using this

/-- The pair loop on the text of well-formed pairs installs every pair, in the order
written. -/
theorem attr_loop_pairs (ps : List WrittenPair) :
    ∀ (p : WrittenPair) (a fuel : Nat) (attrs : List (Str × Str)),
      (∀ q ∈ p :: ps, q.well_formed = true) →
      (List.replicate a ' ' ++ (p.body ++ pairs_text ps)).length < fuel →
      attr_loop fuel (List.replicate a ' ' ++ (p.body ++ pairs_text ps)) attrs
        = .ok ((p :: ps).foldl (fun m q => add_attr m q.key q.value) attrs) := by
  induction ps with
  | nil =>
    intro p a fuel attrs hp hfuel
    obtain ⟨f, rfl⟩ := Nat.exists_eq_succ_of_ne_zero (Nat.not_eq_zero_of_lt hfuel)
    rw [attr_loop_round f a p _ _ attrs (hp p (List.mem_cons_self _ _)) (pairs_text_last [])
      (regex_search_body a p [] hp)]
    cases f with
    | zero => rfl
    | succ f =>
      have hnone : regex_search attr_val_regex [] = none := by decide
      simp [attr_loop, hnone]
  | cons q qs ih =>
    intro p a fuel attrs hp hfuel
    obtain ⟨f, rfl⟩ := Nat.exists_eq_succ_of_ne_zero (Nat.not_eq_zero_of_lt hfuel)
    rw [attr_loop_round f a p _ _ attrs (hp p (List.mem_cons_self _ _))
      (pairs_text_last (q :: qs)) (regex_search_body a p (q :: qs) hp)]
    have hq : ∀ r ∈ q :: qs, r.well_formed = true :=
      fun r hr => hp r (List.mem_cons_of_mem _ hr)
    have hlen : (List.replicate 0 ' ' ++ (q.body ++ pairs_text qs)).length < f := by
      simp only [pairs_text, WrittenPair.text, List.length_append, List.length_replicate,
        List.replicate_zero, List.length_nil] at hfuel ⊢
      omega
    have := ih q 0 f (add_attr attrs p.key p.value) hq hlen
    simpa using this

theorem dropWhile_append_stop (p : Char → Bool) (w r : Str) (hw : ∀ c ∈ w, p c = true)
    (hr : r = [] ∨ ∃ c r', r = c :: r' ∧ p c = false) : (w ++ r).dropWhile p = r := by
  have h1 := List.takeWhile_append_dropWhile p (w ++ r)
  rw [takeWhile_append_stop p w r hw hr] at h1
  exact List.append_cancel_left h1

/-- Name and attribute extraction on the text of an opening line with well-formed pairs: the
node gets the name and every pair, in the order written. -/
theorem open_tag_pairs (curr : Tag) (name : Str) (ps : List WrittenPair) (trail : Nat)
    (hne : name ≠ []) (hname : ∀ c ∈ name, isspace c = false)
    (hps : ∀ q ∈ ps, q.well_formed = true) :
    open_tag curr (name ++ (pairs_text ps ++ List.replicate trail ' '))
      = .ok (.mk name curr.children
          (ps.foldl (fun m q => add_attr m q.key q.value) curr.attrs)) := by
  cases ps with
  | nil => simpa [pairs_text] using open_tag_no_pairs curr name trail hne hname
  | cons p ps =>
    have hwp : ∀ c ∈ name, (fun c : Char => decide (c ≠ ' ')) c = true := by
      intro c hc
      have := hname c hc
      have hcs : c ≠ ' ' := by
        intro e
        subst e
        exact absurd this (by decide)
      simpa using hcs
    have hstop : pairs_text (p :: ps) = [] ∨ ∃ c r', pairs_text (p :: ps) = c :: r' ∧
        (fun c : Char => decide (c ≠ ' ')) c = false :=
      Or.inr ⟨' ', List.replicate p.lead ' ' ++ (p.body ++ pairs_text ps),
        by simp [pairs_text, WrittenPair.text, List.replicate_succ], by simp⟩
    have htrim : trim (name ++ (pairs_text (p :: ps) ++ List.replicate trail ' '))
        = .ok (name ++ pairs_text (p :: ps)) := by
      have hlast : (name ++ pairs_text (p :: ps)).getLast? = some '"' := by
        have e : name ++ pairs_text (p :: ps)
            = (name ++ (List.replicate (p.lead + 1) ' ' ++ (p.key ++
                (List.replicate p.pre ' ' ++ ('=' :: (List.replicate p.post ' ' ++
                  ('"' :: p.quoted))))))) ++ '"' :: pairs_text ps := by
          simp [pairs_text, WrittenPair.text, WrittenPair.body]
        rw [e]
        exact getLast_quote_append _ _ (pairs_text_last ps)
      have := trim_pad [] (name ++ pairs_text (p :: ps)) (List.replicate trail ' ')
        (by simp [hne])
        (by
          intro c hc
          cases hn : name with
          | nil => exact absurd hn hne
          | cons n ns =>
            rw [hn] at hc
            simp only [List.cons_append, List.head?_cons, Option.some.injEq] at hc
            subst hc
            exact not_space_not_trim _ (hname _ (by rw [hn]; exact List.mem_cons_self _ _)))
        (by
          intro c hc
          rw [hlast] at hc
          cases hc
          decide)
        (by simp)
        (by
          intro x hx
          rw [List.eq_of_mem_replicate hx]
          decide)
      simpa using this
    unfold open_tag
    rw [htrim]
    simp only [bind, Except.bind, substr_zero_find, erase0_find]
    rw [takeWhile_append_stop _ name _ hwp hstop, dropWhile_append_stop _ name _ hwp hstop]
    have hloop := attr_loop_pairs ps p (p.lead + 1)
      ((pairs_text (p :: ps)).length + 1) curr.attrs hps
      (by simp [pairs_text, WrittenPair.text])
    have e : pairs_text (p :: ps)
        = List.replicate (p.lead + 1) ' ' ++ (p.body ++ pairs_text ps) := by
      simp [pairs_text, WrittenPair.text]
    rw [← e] at hloop
    rw [hloop]
    rfl

theorem matches_body (p : WrittenPair) (hp : p.well_formed = true) : re_pair.Matches p.body := by
  obtain ⟨⟨hkne, hkey⟩, -⟩ := WrittenPair.well_formed_facts p hp
  obtain ⟨hqne, hq1, -⟩ := WrittenPair.quoted_facts p hp
  have hsp : ∀ n, re_spaces.Matches (List.replicate n ' ') := fun n =>
    matches_star_chr_of _ _ (fun c hc => by simp [List.eq_of_mem_replicate hc])
  have hk : (Regex.plus (.chr (fun c => !isspace c || c = '='))).Matches p.key :=
    matches_plus_chr_of _ _ hkne (fun c hc => by simp [(hkey c hc).1])
  have hq : (Regex.plus (.chr (fun c => c ≠ '"'))).Matches p.quoted :=
    matches_plus_chr_of _ _ hqne (fun c hc => by
      have : c ≠ '"' := fun e => hq1 (e ▸ hc)
      simpa using this)
  have hlit : ∀ c : Char, (Regex.lit c).Matches [c] := fun c => (matches_lit_iff _ _).2 rfl
  exact .seq _ _ p.key _ hk
    (.seq _ _ (List.replicate p.pre ' ') _ (hsp p.pre)
      (.seq _ _ ['='] _ (hlit '=')
        (.seq _ _ (List.replicate p.post ' ') _ (hsp p.post)
          (.seq _ _ ['"'] _ (hlit '"')
            (.seq _ _ p.quoted ['"'] hq (hlit '"'))))))

theorem matches_pairs_text (ps : List WrittenPair) (hps : ∀ q ∈ ps, q.well_formed = true) :
    (Regex.star (.seq (.plus (.lit ' ')) re_pair)).Matches (pairs_text ps) := by
  induction ps with
  | nil => exact .star_nil _
  | cons p ps ih =>
    have hlead : (Regex.plus (.lit ' ')).Matches (List.replicate (p.lead + 1) ' ') :=
      matches_plus_chr_of _ _ (by simp)
        (fun c hc => by simp [List.eq_of_mem_replicate hc])
    exact .star_cons _ p.text (pairs_text ps)
      (.seq _ _ _ _ hlead (matches_body p (hps p (List.mem_cons_self _ _))))
      (ih (fun q hq => hps q (List.mem_cons_of_mem _ hq)))

/-- An opening line with well-formed pairs is accepted by the tag pattern. -/
theorem opening_line_accepted (name : Str) (ps : List WrittenPair) (trail : Nat)
    (hne : name ≠ []) (hname : ∀ c ∈ name, isspace c = false)
    (hps : ∀ q ∈ ps, q.well_formed = true) :
    regex_match tag_regex (opening_line name ps trail) = true := by
  refine (regex_match_iff _ _).2 ?_
  have hsp : re_spaces.Matches (List.replicate trail ' ') :=
    matches_star_chr_of _ _ (fun c hc => by simp [List.eq_of_mem_replicate hc])
  have hopen : re_open.Matches (name ++ (pairs_text ps ++ List.replicate trail ' ')) :=
    .seq _ _ _ _ (matches_re_name_of name hne hname)
      (.seq _ _ _ _ (matches_pairs_text ps hps) hsp)
  exact .seq _ _ ['<'] ((name ++ (pairs_text ps ++ List.replicate trail ' ')) ++ ['>'])
    ((matches_lit_iff _ _).2 rfl)
    (.seq _ _ _ ['>'] (.alt_left _ _ _ hopen) ((matches_lit_iff _ _).2 rfl))

/-- The round of the line loop for an opening line with well-formed pairs: the new node has
the name of the line, no children, and the pairs of the line in its attribute map. -/
theorem build_step_opening (b : Builder) (n : Nat) (name : Str) (ps : List WrittenPair)
    (trail : Nat) (hname : well_formed_name name = true)
    (hps : ∀ q ∈ ps, q.well_formed = true) :
    build_step b n (opening_line name ps trail)
      = .ok ⟨.mk name [] (written_attrs ps), b.curr :: b.up⟩ := by
  simp only [well_formed_name, Bool.and_eq_true, Bool.not_eq_true', List.isEmpty_eq_false,
    List.all_eq_true, bne_iff_ne, ne_eq] at hname
  obtain ⟨⟨hne, hsp⟩, hslash⟩ := hname
  have hsp' : ∀ c ∈ name, isspace c = false := fun c hc => by simpa using hsp c hc
  rw [build_step_valid b n _ (opening_line_accepted name ps trail hne hsp' hps)]
  have hin : inner (opening_line name ps trail)
      = name ++ (pairs_text ps ++ List.replicate trail ' ') := inner_eq _
  have hc : is_closing (opening_line name ps trail) = false := by
    rw [is_closing, hin]
    cases name with
    | nil => exact absurd rfl hne
    | cons c cs =>
      have : c ≠ '/' := fun e => hslash (by simp [e])
      simp [this]
  rw [hc, hin, open_tag_pairs Tag.empty name ps trail hne hsp' hps]
  rfl

/-- The round of the line loop for the closing line of the tag the cursor is on. -/
theorem build_step_closing (b : Builder) (n : Nat) (name : Str)
    (hname : well_formed_name name = true) (hcurr : b.curr.name = name) :
    build_step b n (closing_line name) = .ok b.to_parent := by
  simp only [well_formed_name, Bool.and_eq_true, Bool.not_eq_true', List.isEmpty_eq_false,
    List.all_eq_true, bne_iff_ne, ne_eq] at hname
  obtain ⟨⟨hne, hsp⟩, -⟩ := hname
  obtain ⟨h1, h2, h3⟩ := closing_form_accepted name hne (fun c hc => by simpa using hsp c hc)
  rw [closing_line, build_step_valid b n _ h1, h2, h3]
  simp [hcurr]

/-! ## The tree of a written document -/

theorem tag_eta (t : Tag) : Tag.mk t.name t.children t.attrs = t := by
  cases t
  rfl

theorem build_loop_ok_bind (lines rest : List Str) (n : Nat) (b b' : Builder)
    (h : build_loop lines n b = .ok b') :
    build_loop (lines ++ rest) n b = build_loop rest (n + lines.length) b' := by
  rw [build_loop_append, h]
  rfl

mutual
/-- The line loop on the lines of a well-formed written tag: the node the tag stands for
becomes the last child of the node the cursor is on, and the cursor is back on that node. -/
theorem build_loop_element : ∀ (e : Element), e.well_formed = true →
    ∀ (n : Nat) (b : Builder),
      build_loop e.lines n b
        = .ok ⟨.mk b.curr.name (b.curr.children ++ [e.tag]) b.curr.attrs, b.up⟩
  | .mk name ps tr cs, h, n, b => by
    simp only [Element.well_formed, Bool.and_eq_true, List.all_eq_true] at h
    obtain ⟨⟨hname, hps⟩, hcs⟩ := h
    have hopen := build_step_opening b (n + 1) name ps tr hname hps
    have hin : build_loop (Element.lines_list cs) (n + 1)
        ⟨.mk name [] (written_attrs ps), b.curr :: b.up⟩
        = .ok ⟨.mk name (Element.tags cs) (written_attrs ps), b.curr :: b.up⟩ := by
      simpa [Tag.name, Tag.children, Tag.attrs] using build_loop_elements cs hcs (n + 1)
        ⟨.mk name [] (written_attrs ps), b.curr :: b.up⟩
    simp only [Element.lines, build_loop, hopen, bind, Except.bind]
    rw [build_loop_ok_bind _ _ _ _ _ hin]
    simp only [build_loop, bind, Except.bind]
    rw [build_step_closing ⟨.mk name (Element.tags cs) (written_attrs ps), b.curr :: b.up⟩
      _ name hname rfl]
    simp [Builder.to_parent, Element.tag, Tag.name, Tag.children, Tag.attrs]
/-- The line loop on the lines of a list of well-formed written tags: the nodes they stand for
are appended, in order, to the children of the node the cursor is on. -/
theorem build_loop_elements : ∀ (es : List Element), Element.well_formed_list es = true →
    ∀ (n : Nat) (b : Builder),
      build_loop (Element.lines_list es) n b
        = .ok ⟨.mk b.curr.name (b.curr.children ++ Element.tags es) b.curr.attrs, b.up⟩
  | [], _, n, b => by
    simp [Element.lines_list, Element.tags, build_loop, tag_eta]
  | e :: es, h, n, b => by
    simp only [Element.well_formed_list, Bool.and_eq_true] at h
    have h1 := build_loop_element e h.1 n b
    have h2 := build_loop_elements es h.2 (n + e.lines.length)
      ⟨.mk b.curr.name (b.curr.children ++ [e.tag]) b.curr.attrs, b.up⟩
    simp only [Element.lines_list]
    rw [build_loop_ok_bind _ _ _ _ _ h1, h2]
    simp [Element.tags, Tag.name, Tag.children, Tag.attrs]
end

theorem tag_children (e : Element) : e.tag.children = Element.tags e.children := by
  cases e
  simp [Element.tag, Tag.children, Element.children]

/-- What the line loop accepts: when all lines pass the tag pattern and all opening lines pass
name and attribute extraction, `build_tag_tree` returns a tree exactly when the closing names
match the cursor's name at every closing line (`accepted_nesting_from`) and the loop ends at
the root. -/
theorem build_tag_tree_accepts_iff (input : Str)
    (hvalid : ∀ l ∈ getlines input, regex_match tag_regex l = true)
    (hext : ∀ l ∈ getlines input, is_closing l = false → extracts l = true) :
    (∃ root, build_tag_tree input = .ok root) ↔
      accepted_nesting_from [] (getlines input) = true := by
  rw [← nesting_loop (getlines input) 0 Builder.init [] rfl hvalid hext]
  constructor
  · rintro ⟨root, h⟩
    obtain ⟨b, hb, hu, _⟩ := (build_tag_tree_ok_iff input root).1 h
    exact ⟨b, hb, hu⟩
  · rintro ⟨b, hb, hu⟩
    exact ⟨b.curr, (build_tag_tree_ok_iff input b.curr).2 ⟨b, hb, hu, rfl⟩⟩

/-- The end of `build_tag_tree`: the result is `err_and_exit` with the message
`Missing closing tag` and no line number exactly when the line loop has processed the last
line and left the cursor away from the root; when the loop ends with the cursor at the root,
the root node is returned.  After the last line the cursor has as many ancestors as tags were
opened and not closed. -/
theorem build_tag_tree_end (input : Str) :
    (build_tag_tree input = .error (.exit1 "Missing closing tag".toList (-1)) ↔
      ∃ b, build_loop (getlines input) 0 Builder.init = .ok b ∧ b.up ≠ []) ∧
    (∀ b, build_loop (getlines input) 0 Builder.init = .ok b →
      b.up.length = open_depth (getlines input) 0 ∧
      (b.up = [] → build_tag_tree input = .ok b.curr)) ∧
    (Failure.exit1 "Missing closing tag".toList (-1)).reported_line = none := by
  refine ⟨?_, ?_, by decide⟩
  · unfold build_tag_tree
    cases hloop : build_loop (getlines input) 0 Builder.init with
    | error e =>
      constructor
      · intro h
        exact absurd (Except.error.inj h)
          (build_loop_error_ne (getlines input) 0 Builder.init e hloop)
      · rintro ⟨b, hb, _⟩
        cases hb
    | ok b =>
      cases hu : b.up <;> simp [bind, Except.bind, hu, err_and_exit, pure, Except.pure]
  · intro b hloop
    exact ⟨build_loop_depth _ _ _ _ hloop,
      fun hu => (build_tag_tree_ok_iff input b.curr).2 ⟨b, hloop, hu, rfl⟩⟩

/-- Lines starting with `</` as the builder reads them.  When `<TEXT>` is an accepted line
with a space in `TEXT`, the line `</TEXT>` passes the tag pattern as well; as line `k`, after
lines processed without error, it makes `build_tag_tree` end in `err_and_exit` with the
message `Closing inexisting tag: TEXT` and line number `k`.  The line `</>` passes the tag
pattern too and is read as a closing tag with the empty name. -/
theorem build_tag_tree_slash_line :
    (∀ (input : Str) (pre post : List Str) (text : Str) (b : Builder),
      getlines input = pre ++ ('<' :: '/' :: text ++ ['>']) :: post →
      build_loop pre 0 Builder.init = .ok b →
      regex_match tag_regex ('<' :: text ++ ['>']) = true → ' ' ∈ text →
      regex_match tag_regex ('<' :: '/' :: text ++ ['>']) = true ∧
      build_tag_tree input
        = .error (.exit1 ("Closing inexisting tag: ".toList ++ text)
            ((pre.length + 1 : Nat) : Int))) ∧
    regex_match tag_regex "</>".toList = true ∧
    (∀ (b : Builder) (n : Nat),
      build_step b n "</>".toList
        = if b.curr.name = [] then .ok b.to_parent
          else err_and_exit "Closing inexisting tag: ".toList n) := by
  refine ⟨?_, by decide, ?_⟩
  · intro input pre post text b hlines hpre hv hsp
    have hacc := slash_accepted text hv hsp
    refine ⟨hacc, build_tag_tree_step_error input pre post _ b _ hlines hpre ?_⟩
    have hin : inner ('<' :: '/' :: text ++ ['>']) = '/' :: text := by
      have := inner_eq ('/' :: text)
      simpa using this
    have hname : text ≠ b.curr.name := by
      intro e
      have := build_loop_names_no_space pre 0 Builder.init b
        (by simp [Builder.init, Tag.empty, Tag.name]) hpre b.curr (by simp)
      exact this (e ▸ hsp)
    have hc : is_closing ('<' :: '/' :: text ++ ['>']) = true := by
      rw [is_closing, hin]; rfl
    have hcn : closing_name ('<' :: '/' :: text ++ ['>']) = text := by
      rw [closing_name, hin]; rfl
    rw [build_step_valid b _ _ hacc, hc, hcn]
    simp [hname, err_and_exit]
  · intro b n
    rw [build_step_valid b n _ (by decide)]
    have h1 : is_closing "</>".toList = true := by decide
    have h2 : closing_name "</>".toList = [] := by decide
    rw [h1, h2]
    by_cases hn : b.curr.name = []
    · simp [hn]
    · have hn' : ¬ [] = b.curr.name := fun e => hn e.symm
      simp [hn, hn']

/-! ## The claims -/

/-- C2 (failing input). The lines `<a k=" ">`, `</a>` have the opening-tag and the closing-tag
form, are accepted by the tag pattern and are well nested, and `build_tag_tree` ends with an
uncaught `std::out_of_range` instead of completing.  The single line `</>` is accepted by the
tag pattern and read as a closing tag while no tag is open, so the sequence is not well
nested; `build_tag_tree` still completes and returns the empty root. -/
theorem C2_failing_input :
    ((∀ l ∈ getlines "<a k=\" \">\n</a>\n".toList, regex_match tag_regex l = true) ∧
      well_nested_from [] (getlines "<a k=\" \">\n</a>\n".toList) = true ∧
      build_tag_tree "<a k=\" \">\n</a>\n".toList = .error .out_of_range) ∧
    ((∀ l ∈ getlines "</>\n".toList, regex_match tag_regex l = true) ∧
      (∀ l ∈ getlines "</>\n".toList, is_closing l = true) ∧
      well_nested_from [] (getlines "</>\n".toList) = false ∧
      build_tag_tree "</>\n".toList = .ok Tag.empty) :=
  ⟨⟨by decide, by decide, rfl⟩, ⟨by decide, by decide, by decide, rfl⟩⟩

/-- C3. Mismatched close: when the lines before line `k` are processed without error and leave
the builder in state `b`, and line `k` is accepted by the tag pattern, is a closing tag (as
every line `</NAME>` is, see `closing_form_accepted`), and carries a name different from the
name of the node the cursor `b.curr` points at, then `build_tag_tree` returns no tree: it ends
in `err_and_exit` with the message `Closing inexisting tag: <name>` and line number `k`, which
is printed. -/
theorem C3_mismatched_close (input : Str) (pre post : List Str) (line : Str) (b : Builder)
    (hlines : getlines input = pre ++ line :: post)
    (hpre : build_loop pre 0 Builder.init = .ok b)
    (hvalid : regex_match tag_regex line = true)
    (hclosing : is_closing line = true)
    (hname : closing_name line ≠ b.curr.name) :
    build_tag_tree input
        = .error (.exit1 ("Closing inexisting tag: ".toList ++ closing_name line)
            ((pre.length + 1 : Nat) : Int)) ∧
      (Failure.exit1 ("Closing inexisting tag: ".toList ++ closing_name line)
            ((pre.length + 1 : Nat) : Int)).reported_line
        = some ((pre.length + 1 : Nat) : Int) := by
  refine ⟨build_tag_tree_step_error input pre post line b _ hlines hpre ?_, ?_⟩
  · rw [build_step_valid b _ line hvalid]
    simp [hclosing, hname, err_and_exit]
  · simp only [Failure.reported_line]
    rw [if_pos (by omega)]

/-- C3 (witness): scenario 5, `<a>`, `<b>`, `</a>` fails at line 3. -/
theorem C3_mismatched_close_witness :
    getlines "<a>\n<b>\n</a>\n".toList
      = ["<a>".toList, "<b>".toList] ++ "</a>".toList :: [] ∧
    build_loop ["<a>".toList, "<b>".toList] 0 Builder.init
      = .ok ⟨.mk "b".toList [] [], [.mk "a".toList [] [], Tag.empty]⟩ ∧
    regex_match tag_regex "</a>".toList = true ∧
    is_closing "</a>".toList = true ∧
    closing_name "</a>".toList ≠ "b".toList ∧
    build_tag_tree "<a>\n<b>\n</a>\n".toList
      = .error (.exit1 "Closing inexisting tag: a".toList 3) ∧
    (Failure.exit1 "Closing inexisting tag: a".toList 3).stderr
      = "Line 3\n\tClosing inexisting tag: a\n".toList :=
  ⟨rfl, rfl, by decide, by decide, by decide,
    (C3_mismatched_close "<a>\n<b>\n</a>\n".toList ["<a>".toList, "<b>".toList] []
      "</a>".toList ⟨.mk "b".toList [] [], [.mk "a".toList [] [], Tag.empty]⟩
      rfl rfl (by decide) (by decide) (by decide)).1, by decide⟩

/-- C4 (failing input). The single line `<a k=" ">` is accepted by the tag pattern, no closing
tag occurs, and the tag `a` is never closed; `build_tag_tree` does not reach the
missing-closing-tag error: the extraction of the pair throws `std::out_of_range` first.  On
the lines `<a k=" ">`, `</a>`, which are accepted and well nested, no root is returned for the
same reason. -/
theorem C4_failing_input :
    (∀ l ∈ getlines "<a k=\" \">\n".toList, regex_match tag_regex l = true) ∧
    (∀ l ∈ getlines "<a k=\" \">\n".toList, is_closing l = false) ∧
    open_depth (getlines "<a k=\" \">\n".toList) 0 = 1 ∧
    build_tag_tree "<a k=\" \">\n".toList = .error .out_of_range ∧
    build_tag_tree "<a k=\" \">\n".toList
      ≠ .error (.exit1 "Missing closing tag".toList (-1)) ∧
    (∀ l ∈ getlines "<a k=\" \">\n</a>\n".toList, regex_match tag_regex l = true) ∧
    well_nested_from [] (getlines "<a k=\" \">\n</a>\n".toList) = true ∧
    open_depth (getlines "<a k=\" \">\n</a>\n".toList) 0 = 0 ∧
    build_tag_tree "<a k=\" \">\n</a>\n".toList = .error .out_of_range :=
  ⟨by decide, by decide, by decide, rfl,
    fun h => absurd (Except.error.inj ((show build_tag_tree "<a k=\" \">\n".toList
      = .error .out_of_range from rfl).symm.trans h)) (by decide),
    by decide, by decide, by decide, rfl⟩

/-- C5. Syntax error with line number: when the lines before line `k` are processed without
error and line `k` is `<NAME TEXT>` with a character other than a space in `TEXT` and no double
quote in the line, `build_tag_tree` ends in `err_and_exit` with the message `Syntax error` and
line number `k`, which is printed. -/
theorem C5_syntax_error (input : Str) (pre post : List Str) (name text : Str) (b : Builder)
    (c : Char)
    (hlines : getlines input = pre ++ ('<' :: (name ++ ' ' :: text) ++ ['>']) :: post)
    (hpre : build_loop pre 0 Builder.init = .ok b)
    (hc : c ∈ text) (hcs : c ≠ ' ')
    (hq : '"' ∉ name ++ ' ' :: text) :
    build_tag_tree input
        = .error (.exit1 "Syntax error".toList ((pre.length + 1 : Nat) : Int)) ∧
      (Failure.exit1 "Syntax error".toList ((pre.length + 1 : Nat) : Int)).reported_line
        = some ((pre.length + 1 : Nat) : Int) := by
  refine ⟨build_tag_tree_step_error input pre post _ b _ hlines hpre ?_, ?_⟩
  · rw [build_step_invalid b _ _ (tag_regex_rejects_unquoted name text c hc hcs hq)]
    rfl
  · simp only [Failure.reported_line]
    rw [if_pos (by omega)]

/-- C5 (witness): scenario 4, `<tag value=novalue>` as second line fails with line number 2. -/
theorem C5_syntax_error_witness :
    getlines "<a>\n<tag value=novalue>\n</a>\n".toList
      = ["<a>".toList] ++ ('<' :: ("tag".toList ++ ' ' :: "value=novalue".toList) ++ ['>'])
          :: ["</a>".toList] ∧
    build_loop ["<a>".toList] 0 Builder.init = .ok ⟨.mk "a".toList [] [], [Tag.empty]⟩ ∧
    'v' ∈ "value=novalue".toList ∧ 'v' ≠ ' ' ∧
    '"' ∉ "tag".toList ++ ' ' :: "value=novalue".toList ∧
    build_tag_tree "<a>\n<tag value=novalue>\n</a>\n".toList
      = .error (.exit1 "Syntax error".toList 2) ∧
    (Failure.exit1 "Syntax error".toList 2).stderr = "Line 2\n\tSyntax error\n".toList :=
  ⟨rfl, rfl, by decide, by decide, by decide,
    (C5_syntax_error "<a>\n<tag value=novalue>\n</a>\n".toList ["<a>".toList] ["</a>".toList]
      "tag".toList "value=novalue".toList ⟨.mk "a".toList [] [], [Tag.empty]⟩ 'v'
      rfl rfl (by decide) (by decide) (by decide)).1, by decide⟩

/-- C6 (counterexample). Scenario 1 of the specification: `build_tag_tree` returns the unnamed
root above `tag1`; the first segment `tag1` of the query `tag1~value` differs from the name of
that root, and `get_attr_val` still returns `value`. -/
theorem C6_counterexample :
    build_tag_tree "<tag1 value=\"value\">\n</tag1>\n".toList = .ok ex_tag1_tree ∧
    first_segment "tag1~value".toList ≠ ex_tag1_tree.name ∧
    get_attr_val ex_tag1_tree "tag1~value".toList = .ok (some "value".toList) :=
  ⟨rfl, by decide, rfl⟩

/-- C6 (amended). Anchor law as implemented: the first segment of a query is looked up among the
direct children of the node `get_attr_val` is given; when no direct child has that name the
result is not found, whatever the rest of the query is. -/
theorem C6_anchor_first_child (tag_tree : Tag) (q : Str)
    (h : find_child tag_tree (first_segment q) = none) :
    get_attr_val tag_tree q = .ok none := by
  have hq : q = first_segment q ++ q.dropWhile (fun c => !is_delim c) :=
    (List.takeWhile_append_dropWhile _ q).symm
  have hseg : ∀ c ∈ first_segment q, is_delim c = false := by
    intro c hc
    have := List.mem_takeWhile_imp hc
    simpa using this
  unfold get_attr_val
  generalize hr : q.dropWhile (fun c => !is_delim c) = r at hq
  conv_lhs => arg 3; rw [hq]
  rw [get_attr_loop_seg _ _ _ _ hseg]
  cases r with
  | nil => rfl
  | cons d rest =>
    have hd : is_delim d = true := by
      have := List.head_dropWhile_not (fun c => !is_delim c) q (by rw [hr]; simp)
      simpa [hr] using this
    simp only [is_delim, Bool.or_eq_true, decide_eq_true_eq] at hd
    rcases hd with rfl | rfl
    · rw [get_attr_loop_dot]; simp [descend, h]
    · rw [get_attr_loop_tilde]; simp [descend, h]

/-- C6 (witness): on the tree of scenario 1 the query `tag2.tag1~value` is not found. -/
theorem C6_anchor_first_child_witness :
    find_child ex_tag1_tree (first_segment "tag2.tag1~value".toList) = none ∧
    get_attr_val ex_tag1_tree "tag2.tag1~value".toList = .ok none :=
  ⟨rfl, C6_anchor_first_child ex_tag1_tree "tag2.tag1~value".toList rfl⟩

/-- C7. Missing descent: when the segments `pre` (each followed by `.`) lead from the given
node to `t` and the next segment `seg`, followed by `.` or `~`, names no direct child of `t`,
the result is not found, whatever follows in the query. -/
theorem C7_missing_descent (tag_tree : Tag) (pre : List Str) (seg rest : Str) (d : Char)
    (t : Tag)
    (hpre : ∀ s ∈ pre, ∀ c ∈ s, is_delim c = false)
    (hseg : ∀ c ∈ seg, is_delim c = false)
    (hd : d = '.' ∨ d = '~')
    (hw : walk tag_tree pre = some t)
    (hmiss : find_child t seg = none) :
    get_attr_val tag_tree (pre.flatMap (· ++ ['.']) ++ (seg ++ d :: rest)) = .ok none := by
  unfold get_attr_val
  rw [get_attr_loop_walk _ _ _ _ pre hpre tag_tree t hw, get_attr_loop_seg _ _ _ _ hseg]
  rcases hd with rfl | rfl
  · rw [get_attr_loop_dot]; simp [descend, hmiss]
  · rw [get_attr_loop_tilde]; simp [descend, hmiss]

/-- C7 (witness): scenario 3, `a.c~x` on the tree of `<a x="1">`, `<b x="2">`, `</b>`, `</a>`. -/
theorem C7_missing_descent_witness :
    build_tag_tree "<a x=\"1\">\n<b x=\"2\">\n</b>\n</a>\n".toList = .ok ex_ab_tree ∧
    (∀ s ∈ ["a".toList], ∀ c ∈ s, is_delim c = false) ∧
    (∀ c ∈ "c".toList, is_delim c = false) ∧
    walk ex_ab_tree ["a".toList] = some ex_ab_a ∧
    find_child ex_ab_a "c".toList = none ∧
    get_attr_val ex_ab_tree "a.c~x".toList = .ok none :=
  ⟨rfl, by decide, by decide, rfl, rfl,
    C7_missing_descent ex_ab_tree ["a".toList] "c".toList "x".toList '~' ex_ab_a
      (by decide) (by decide) (Or.inr rfl) rfl rfl⟩

/-- C8 (failing input). The lines `<a k=" ">`, `</a>` are accepted by the tag pattern and well
nested, yet `build_tag_tree` returns no root: `trim` of the value ` ` throws
`std::out_of_range`. -/
theorem C8_failing_input :
    (∀ l ∈ getlines "<a k=\" \">\n</a>\n".toList, regex_match tag_regex l = true) ∧
    well_nested_from [] (getlines "<a k=\" \">\n</a>\n".toList) = true ∧
    opening_lines (getlines "<a k=\" \">\n</a>\n".toList) = 1 ∧
    build_tag_tree "<a k=\" \">\n</a>\n".toList = .error .out_of_range :=
  ⟨by decide, by decide, by decide, rfl⟩

/-- C9 (failing input). In `<a k="a=" k="b">` the key `k` occurs in two pairs; the search for
the first pair matches up to the opening quote of the second value, so the second pair is never
installed: the node maps `k` to `a=` and the query `a~k` returns `a=`, not `b`.  In
`<a k="1" k=" ">` the rightmost value is blank and `trim` throws `std::out_of_range`. -/
theorem C9_failing_input :
    regex_match tag_regex "<a k=\"a=\" k=\"b\">".toList = true ∧
    regex_search attr_val_regex " k=\"a=\" k=\"b\"".toList = some "b\"".toList ∧
    build_tag_tree "<a k=\"a=\" k=\"b\">\n</a>\n".toList
      = .ok (.mk [] [.mk "a".toList [] [("k".toList, "a=".toList)]] []) ∧
    get_attr_val (.mk [] [.mk "a".toList [] [("k".toList, "a=".toList)]] []) "a~k".toList
      = .ok (some "a=".toList) ∧
    regex_match tag_regex "<a k=\"1\" k=\" \">".toList = true ∧
    build_tag_tree "<a k=\"1\" k=\" \">\n</a>\n".toList = .error .out_of_range :=
  ⟨by decide, by decide, rfl, rfl, by decide, rfl⟩

/-- C10. No tilde, no value: for every tree and every query without `~`, `get_attr_val` returns
not found. -/
theorem C10_no_tilde (tag_tree : Tag) (input : Str) (h : '~' ∉ input) :
    get_attr_val tag_tree input = .ok none :=
  get_attr_loop_no_tilde tag_tree input input h _ _ _

/-- C10 (witness): the query `a.b.value` on the tree of scenario 2. -/
theorem C10_no_tilde_witness :
    '~' ∉ "a.b.value".toList ∧ get_attr_val ex_hello_tree "a.b.value".toList = .ok none :=
  ⟨by decide, C10_no_tilde ex_hello_tree "a.b.value".toList (by decide)⟩

/-- C12. Reference semantics of `get_attr_val` for single-tilde queries: for every tree, every
non-empty list of segments without `.` and `~` and every attribute name `a` without `~`, the
result on `s1.s2. ... .sn~a` is the reference result: start at the given node, step for each
segment to the first direct child in document order with that name (not found if there is
none), then look `a` up in the attribute mapping of the node reached (not found if absent). -/
theorem C12_reference_semantics (tag_tree : Tag) (segs : List Str) (a : Str)
    (hne : segs ≠ [])
    (hsegs : ∀ s ∈ segs, ∀ c ∈ s, is_delim c = false)
    (ha : '~' ∉ a) :
    get_attr_val tag_tree (path_query segs a) = .ok (ref_get_attr_val tag_tree segs a) := by
  rw [get_attr_val_single_tilde tag_tree segs a hne hsegs ha]
  unfold ref_get_attr_val
  rw [ref_descend_eq]
  cases walk tag_tree segs with
  | none => rfl
  | some t => simp [ref_attr_eq]

/-- C12 (witness): with two children named `b`, `a.b~v` reads the first one. -/
theorem C12_reference_semantics_witness :
    ["a".toList, "b".toList] ≠ [] ∧
    (∀ s ∈ ["a".toList, "b".toList], ∀ c ∈ s, is_delim c = false) ∧
    '~' ∉ "v".toList ∧
    ref_get_attr_val ex_twins_tree ["a".toList, "b".toList] "v".toList = some "1".toList ∧
    get_attr_val ex_twins_tree "a.b~v".toList = .ok (some "1".toList) :=
  ⟨by decide, by decide, by decide, rfl,
    C12_reference_semantics ex_twins_tree ["a".toList, "b".toList] "v".toList
      (by decide) (by decide) (by decide)⟩

/-- C13 (failing input). The forest of one tag `a` with the attributes `k="x="` and `y="z"` is
well formed and is written as the lines `<a k="x=" y="z">`, `</a>`; `build_tag_tree` accepts
them, but the node it builds has no attribute `y`: the children of the returned root are not
that forest. -/
theorem C13_failing_input :
    well_formed_forest ex_forest = true ∧
    render_forest ex_forest = ["<a k=\"x=\" y=\"z\">".toList, "</a>".toList] ∧
    build_tag_tree (unlines (render_forest ex_forest))
      = .ok (.mk [] [.mk "a".toList [] [("k".toList, "x=".toList)]] []) ∧
    attrs_find (Tag.mk "a".toList [] [("k".toList, "x=".toList)]).attrs "y".toList = none ∧
    (∀ t ∈ ex_forest, attrs_find t.attrs "y".toList = some "z".toList) :=
  ⟨by decide, by decide, rfl, rfl, by
    intro t ht
    simp only [ex_forest, List.mem_singleton] at ht
    subst ht
    rfl⟩

/-- C15 (counterexample). On the tree built from `<a x.y="1">`, `</a>` the query `a~x.y` finds
the attribute `x.y` at the `~`; at the following `.` the token `x.yx` names no child of `a`,
the scan stops, and the result is still the value `1`, not "not found". -/
theorem C15_counterexample :
    build_tag_tree "<a x.y=\"1\">\n</a>\n".toList = .ok ex_xy_tree ∧
    walk ex_xy_tree ["a".toList] = some ex_xy_a ∧
    find_child ex_xy_a ("x.y".toList ++ "x".toList) = none ∧
    get_attr_val ex_xy_tree "a~x.y".toList = .ok (some "1".toList) :=
  ⟨rfl, rfl, rfl, rfl⟩

/-- C15 (amended). A failed descent stops the scan and keeps the result held so far.  At any
point of the scan, with current tag `t`, token buffer `token` and result `res`, a delimiter at
which `token` names no direct child of `t` ends the scan with `res`.  In particular, in a
query `s1. ... .sn~r` whose descent up to the first `~` ends at `t`, when the token completed
at the next delimiter of `r` (the text `r` followed by the characters `u` before that
delimiter) names no direct child of `t`, the overall result is the result of looking `r` up on
`t`: the value when `t` has the attribute `r`, not found otherwise. -/
theorem C15_descent_failure (tag_tree : Tag) :
    (∀ (input rest : Str) (d : Char) (t : Tag) (token : Str) (res : Option Str),
      (d = '.' ∨ d = '~') → find_child t token = none →
      get_attr_loop tag_tree input (d :: rest) (some t) token res = .ok res) ∧
    (∀ (segs : List Str) (u rest : Str) (d : Char) (t : Tag),
      segs ≠ [] → (∀ s ∈ segs, ∀ c ∈ s, is_delim c = false) →
      (∀ c ∈ u, is_delim c = false) → (d = '.' ∨ d = '~') →
      walk tag_tree segs = some t →
      find_child t ((u ++ d :: rest) ++ u) = none →
      get_attr_val tag_tree (path_query segs (u ++ d :: rest))
        = .ok (attrs_find t.attrs (u ++ d :: rest))) := by
  refine ⟨fun input rest d t token res hd hmiss =>
    get_attr_loop_miss tag_tree input rest d t token res hd hmiss, ?_⟩
  intro segs u rest d t hne hsegs hu hd hwalk hmiss
  rw [get_attr_val_first_tilde tag_tree segs _ hne hsegs, hwalk]
  simp only
  rw [get_attr_loop_seg _ _ _ _ hu]
  exact get_attr_loop_miss _ _ _ _ _ _ _ hd hmiss

/-- C15 (witness): the query `a~x.y` on the tree of `<a x.y="1">`, `</a>`. -/
theorem C15_descent_failure_witness :
    ["a".toList] ≠ [] ∧
    (∀ s ∈ ["a".toList], ∀ c ∈ s, is_delim c = false) ∧
    (∀ c ∈ "x".toList, is_delim c = false) ∧
    walk ex_xy_tree ["a".toList] = some ex_xy_a ∧
    find_child ex_xy_a (("x".toList ++ '.' :: "y".toList) ++ "x".toList) = none ∧
    get_attr_val ex_xy_tree "a~x.y".toList = .ok (some "1".toList) :=
  ⟨by decide, by decide, by decide, rfl, rfl,
    (C15_descent_failure ex_xy_tree).2 ["a".toList] "x".toList "y".toList '.' ex_xy_a
      (by decide) (by decide) (by decide) (Or.inl rfl) rfl rfl⟩

/-- C16. Empty segments fail: in every tree that `build_tag_tree` returns all nodes below the
root (the nodes created for opening tags) have non-empty names; therefore a query that starts
with a delimiter, or that has a `.` directly followed by another delimiter before or at its
first `~`, returns not found. -/
theorem C16_empty_segments (input : Str) (root : Tag)
    (hbuild : build_tag_tree input = .ok root) :
    Tag.named_list root.children = true ∧
    (∀ (d : Char) (rest : Str), (d = '.' ∨ d = '~') →
      get_attr_val root (d :: rest) = .ok none) ∧
    (∀ (y rest : Str) (d : Char), '~' ∉ y → (d = '.' ∨ d = '~') →
      get_attr_val root (y ++ '.' :: d :: rest) = .ok none) := by
  have hn := build_tag_tree_named input root hbuild
  refine ⟨hn, ?_, ?_⟩
  · intro d rest hd
    exact get_attr_loop_miss _ _ _ _ _ _ _ hd (find_child_empty root hn)
  · intro y rest d hy hd
    exact get_attr_loop_empty_segment _ _ y rest d hy hd root hn []

/-- C16 (witness): the queries `.a~x` and `a..b~x` on the tree of scenario 3. -/
theorem C16_empty_segments_witness :
    build_tag_tree "<a x=\"1\">\n<b x=\"2\">\n</b>\n</a>\n".toList = .ok ex_ab_tree ∧
    Tag.named_list ex_ab_tree.children = true ∧
    get_attr_val ex_ab_tree ".a~x".toList = .ok none ∧
    get_attr_val ex_ab_tree "a..b~x".toList = .ok none :=
  have h := C16_empty_segments "<a x=\"1\">\n<b x=\"2\">\n</b>\n</a>\n".toList ex_ab_tree rfl
  ⟨rfl, h.1, h.2.1 '.' "a~x".toList (Or.inl rfl),
    h.2.2 "a".toList "b~x".toList '.' (by decide) (Or.inl rfl)⟩

/-- C17 (failing input). The line `<a k="v=" n="w">` is accepted by the tag pattern and has the
pairs `k="v="` and `n="w"`; the search for the first pair matches ` k="v=" n="` and leaves `w"`,
so the new node stores `k` with `v=` only and the pair `n="w"` is not stored.  The line
`<a k=" ">` is accepted as well and its extraction throws instead of storing an empty value. -/
theorem C17_failing_input :
    regex_match tag_regex "<a k=\"v=\" n=\"w\">".toList = true ∧
    regex_search attr_val_regex " k=\"v=\" n=\"w\"".toList = some "w\"".toList ∧
    open_tag Tag.empty "a k=\"v=\" n=\"w\"".toList
      = .ok (.mk "a".toList [] [("k".toList, "v=".toList)]) ∧
    attrs_find (Tag.mk "a".toList [] [("k".toList, "v=".toList)]).attrs "n".toList = none ∧
    regex_match tag_regex "<a k=\" \">".toList = true ∧
    open_tag Tag.empty "a k=\" \"".toList = .error .out_of_range ∧
    open_tag Tag.empty "a k = \" v \"".toList
      = .ok (.mk "a".toList [] [("k".toList, "v".toList)]) :=
  ⟨by decide, by decide, rfl, rfl, by decide, rfl, rfl⟩

/-- C18 (failing input). The line `</a b="c">` is accepted by the tag pattern (first
alternative, name `/a`), and `build_tag_tree` ends with the mismatched-close error for the name
`a b="c"`, not with a syntax error; the line `</>` is accepted too and, at top level, lets
`build_tag_tree` return the empty root. -/
theorem C18_failing_input :
    regex_match tag_regex "</a b=\"c\">".toList = true ∧
    build_tag_tree "</a b=\"c\">\n".toList
      = .error (.exit1 "Closing inexisting tag: a b=\"c\"".toList 1) ∧
    build_tag_tree "</a b=\"c\">\n".toList ≠ .error (.exit1 "Syntax error".toList 1) ∧
    regex_match tag_regex "</>".toList = true ∧
    build_tag_tree "</>\n".toList = .ok Tag.empty :=
  ⟨by decide, rfl,
    fun h => absurd (Except.error.inj ((show build_tag_tree "</a b=\"c\">\n".toList
      = .error (.exit1 "Closing inexisting tag: a b=\"c\"".toList 1) from rfl).symm.trans h))
      (by decide),
    by decide, rfl⟩

/-- C19 (failing input). The lines `<a k=" ">` and `<a =="v">` are accepted by the tag pattern
as opening tags, and the extraction that follows throws `std::out_of_range`: `trim` of the
blank value, and `trim` of the empty text before the first `=`, reach `ltrim("")`, where
`find_first_not_of` gives `npos` and `substr(npos)` is out of range. -/
theorem C19_failing_input :
    regex_match tag_regex "<a k=\" \">".toList = true ∧
    is_closing "<a k=\" \">".toList = false ∧
    open_tag Tag.empty (inner "<a k=\" \">".toList) = .error .out_of_range ∧
    build_tag_tree "<a k=\" \">\n</a>\n".toList = .error .out_of_range ∧
    regex_match tag_regex "<a ==\"v\">".toList = true ∧
    is_closing "<a ==\"v\">".toList = false ∧
    open_tag Tag.empty (inner "<a ==\"v\">".toList) = .error .out_of_range ∧
    build_tag_tree "<a ==\"v\">\n</a>\n".toList = .error .out_of_range ∧
    trim " ".toList = .error .out_of_range ∧
    rtrim " ".toList = .ok [] ∧
    find_first_not_of [] trim_set = none ∧
    ltrim [] = .error .out_of_range :=
  ⟨by decide, by decide, rfl, rfl, by decide, by decide, rfl, rfl, rfl, rfl, rfl, rfl⟩

end AttributeParser
